import Mathlib

/-!
Verification development for the S++ static-analysis design and the
C++ bootstrap tokenizer.

The repository implements, under cpp-bootstrap, only the tokenizer
(token.hpp); the static-analysis engine (range model, narrowing,
iterator analysis, array bound resolver, analysis driver) is specified
in README.md but has no source code.  Definitions of that engine below
are therefore modelled from the specification text; the tokenizer is
embedded from token.hpp.
-/

namespace Spp

/-- Modelled from the spec: the Range/Type-Set Model of section 4.1 has no
implementation in the repository.  A value range for the natural scalar
kind is a pair of an inclusive lower bound `lo` and an exclusive upper
bound `hi`, where `hi = none` means unbounded above (a range is never
unbounded below the kind's natural floor `0`).  This mirrors the
`min <= x < max` notation used throughout README section 4.1. -/
structure Range where
  lo : ℕ
  hi : Option ℕ
deriving DecidableEq, Repr

namespace Range

/-- A concrete runtime value lies inside a range. -/
def mem (v : ℕ) (r : Range) : Prop :=
  r.lo ≤ v ∧ ∀ h : ℕ, r.hi = some h → v < h

instance (v : ℕ) (r : Range) : Decidable (mem v r) :=
  match hr : r.hi with
  | some b => decidable_of_iff (r.lo ≤ v ∧ v < b) (by simp [mem, hr])
  | none => decidable_of_iff (r.lo ≤ v) (by simp [mem, hr])

/-- A range with no member: the "statically unreachable" result of an
intersection (spec section 4.1). -/
def isEmpty (r : Range) : Bool :=
  match r.hi with
  | some h => h ≤ r.lo
  | none => false

/-- Modelled from the spec: `intersect(a,b)` of section 4.1. -/
def inter (a b : Range) : Range :=
  ⟨max a.lo b.lo,
    match a.hi, b.hi with
    | some x, some y => some (min x y)
    | some x, none => some x
    | none, y => y⟩

/-- Modelled from the spec: `union(a,b)` of section 4.1 (least range
containing both operands, an empty operand contributing nothing). -/
def union (a b : Range) : Range :=
  if a.isEmpty then b
  else if b.isEmpty then a
  else
    ⟨min a.lo b.lo,
      match a.hi, b.hi with
      | some x, some y => some (max x y)
      | _, _ => none⟩

/-- Modelled from the spec: interval `add` of section 4.1. -/
def add (a b : Range) : Range :=
  ⟨a.lo + b.lo,
    match a.hi, b.hi with
    | some x, some y => some (x + y - 1)
    | _, _ => none⟩

/-- Modelled from the spec: interval `multiply` of section 4.1; on the
natural kind the four min/max cross products are monotone, so the least
product is `lo * lo` and the greatest is the product of the two
inclusive maxima. -/
def mul (a b : Range) : Range :=
  ⟨a.lo * b.lo,
    match a.hi, b.hi with
    | some x, some y => some ((x - 1) * (y - 1) + 1)
    | _, _ => none⟩

theorem mem_top (v : ℕ) : mem v ⟨0, none⟩ := by
  constructor
  · exact Nat.zero_le v
  · intro h hh
    cases hh

theorem not_isEmpty_of_mem {v : ℕ} {r : Range} (hv : mem v r) : r.isEmpty = false := by
  obtain ⟨h1, h2⟩ := hv
  unfold isEmpty
  cases hr : r.hi with
  | none => rfl
  | some b =>
    have := h2 b hr
    simp
    omega

theorem mem_inter_iff (v : ℕ) (a b : Range) :
    mem v (inter a b) ↔ mem v a ∧ mem v b := by
  unfold mem inter
  cases ha : a.hi <;> cases hb : b.hi <;>
    simp_all <;> omega

theorem mem_union_left {v : ℕ} {a : Range} (b : Range) (hv : mem v a) :
    mem v (union a b) := by
  have hne := not_isEmpty_of_mem hv
  obtain ⟨h1, h2⟩ := hv
  unfold union
  rw [hne]
  simp only [Bool.false_eq_true, if_false]
  by_cases hbe : b.isEmpty = true
  · simp [hbe]
    exact ⟨h1, h2⟩
  · simp only [hbe, if_false]
    constructor
    · simp
      omega
    · intro h hh
      cases ha : a.hi <;> cases hb : b.hi <;> simp_all <;> omega

theorem mem_union_right {v : ℕ} (a : Range) {b : Range} (hv : mem v b) :
    mem v (union a b) := by
  have hne := not_isEmpty_of_mem hv
  obtain ⟨h1, h2⟩ := hv
  unfold union
  by_cases hae : a.isEmpty = true
  · simp [hae]
    exact ⟨h1, h2⟩
  · simp only [hae, Bool.false_eq_true, if_false, hne]
    constructor
    · simp
      omega
    · intro h hh
      cases ha : a.hi <;> cases hb : b.hi <;> simp_all <;> omega

theorem mem_add {x y : ℕ} {a b : Range} (hx : mem x a) (hy : mem y b) :
    mem (x + y) (add a b) := by
  obtain ⟨hx1, hx2⟩ := hx
  obtain ⟨hy1, hy2⟩ := hy
  unfold add
  constructor
  · simp
    omega
  · intro h hh
    cases ha : a.hi <;> cases hb : b.hi <;> simp_all <;> omega

theorem mem_mul {x y : ℕ} {a b : Range} (hx : mem x a) (hy : mem y b) :
    mem (x * y) (mul a b) := by
  obtain ⟨hx1, hx2⟩ := hx
  obtain ⟨hy1, hy2⟩ := hy
  unfold mul
  constructor
  · simp
    exact Nat.mul_le_mul hx1 hy1
  · intro h hh
    cases ha : a.hi with
    | none => simp_all
    | some xh =>
      cases hb : b.hi with
      | none => simp_all
      | some yh =>
        have h1 := hx2 _ ha
        have h2 := hy2 _ hb
        simp only [ha, hb] at hh
        have hx3 : x ≤ xh - 1 := by omega
        have hy3 : y ≤ yh - 1 := by omega
        have := Nat.mul_le_mul hx3 hy3
        simp at hh
        omega

end Range

/-- Modelled from the spec: the relational predicates of section 4.1
(`<`, `<=`, `>`, `>=`, `==`, `!=`). -/
inductive Cmp
  | lt
  | le
  | gt
  | ge
  | eq
  | ne
deriving DecidableEq, Repr

/-- Concrete truth value of a relational predicate against a constant. -/
def Cmp.holds : Cmp → ℕ → ℕ → Bool
  | .lt, a, b => a < b
  | .le, a, b => a ≤ b
  | .gt, a, b => b < a
  | .ge, a, b => b ≤ a
  | .eq, a, b => a = b
  | .ne, a, b => a ≠ b

namespace Range

/-- Modelled from the spec: comparison narrowing of section 4.1 — given a
range and a relational predicate against the constant `k`, produce the
true-branch and false-branch ranges as the intersections of the range
with the predicate's implied half-space and with its complement (a
complement that is not an interval is over-approximated by the union of
its two interval parts). -/
def narrow (r : Range) (c : Cmp) (k : ℕ) : Range × Range :=
  match c with
  | .lt => (inter r ⟨0, some k⟩, inter r ⟨k, none⟩)
  | .le => (inter r ⟨0, some (k + 1)⟩, inter r ⟨k + 1, none⟩)
  | .gt => (inter r ⟨k + 1, none⟩, inter r ⟨0, some (k + 1)⟩)
  | .ge => (inter r ⟨k, none⟩, inter r ⟨0, some k⟩)
  | .eq => (inter r ⟨k, some (k + 1)⟩,
            union (inter r ⟨0, some k⟩) (inter r ⟨k + 1, none⟩))
  | .ne => (union (inter r ⟨0, some k⟩) (inter r ⟨k + 1, none⟩),
            inter r ⟨k, some (k + 1)⟩)

/-- Modelled from the spec: narrowing by the compound predicate
`x >= a && x < b` used in README section 4.1's worked example — the
true branch intersects with both half-spaces, the false branch
intersects with the complement `x < a || x >= b`. -/
def narrowGeAndLt (r : Range) (a b : ℕ) : Range × Range :=
  (inter (inter r ⟨a, none⟩) ⟨0, some b⟩,
   union (inter r ⟨0, some a⟩) (inter r ⟨b, none⟩))

theorem narrow_true_sound {v : ℕ} {r : Range} {c : Cmp} {k : ℕ}
    (hv : mem v r) (hc : Cmp.holds c v k = true) :
    mem v (narrow r c k).1 := by
  cases c <;> simp only [Cmp.holds, decide_eq_true_eq] at hc <;>
    simp only [narrow]
  · exact (mem_inter_iff ..).2 ⟨hv, by constructor <;> simp <;> omega⟩
  · exact (mem_inter_iff ..).2 ⟨hv, by constructor <;> simp <;> omega⟩
  · exact (mem_inter_iff ..).2 ⟨hv, by constructor <;> simp <;> omega⟩
  · exact (mem_inter_iff ..).2 ⟨hv, by constructor <;> simp <;> omega⟩
  · exact (mem_inter_iff ..).2 ⟨hv, by constructor <;> simp <;> omega⟩
  · rcases Nat.lt_or_ge v k with h | h
    · exact mem_union_left _ ((mem_inter_iff ..).2 ⟨hv, by constructor <;> simp <;> omega⟩)
    · exact mem_union_right _ ((mem_inter_iff ..).2 ⟨hv, by constructor <;> simp <;> omega⟩)

theorem narrow_false_sound {v : ℕ} {r : Range} {c : Cmp} {k : ℕ}
    (hv : mem v r) (hc : Cmp.holds c v k = false) :
    mem v (narrow r c k).2 := by
  cases c <;> simp only [Cmp.holds, decide_eq_false_iff_not] at hc <;>
    simp only [narrow]
  · exact (mem_inter_iff ..).2 ⟨hv, by constructor <;> simp <;> omega⟩
  · exact (mem_inter_iff ..).2 ⟨hv, by constructor <;> simp <;> omega⟩
  · exact (mem_inter_iff ..).2 ⟨hv, by constructor <;> simp <;> omega⟩
  · exact (mem_inter_iff ..).2 ⟨hv, by constructor <;> simp <;> omega⟩
  · rcases Nat.lt_or_ge v k with h | h
    · exact mem_union_left _ ((mem_inter_iff ..).2 ⟨hv, by constructor <;> simp <;> omega⟩)
    · exact mem_union_right _ ((mem_inter_iff ..).2 ⟨hv, by constructor <;> simp <;> omega⟩)
  · exact (mem_inter_iff ..).2 ⟨hv, by constructor <;> simp <;> omega⟩

end Range

/-- C2 counterexample: the narrowed ranges are not always the exact
intersections with the predicate's half-space and its complement.  The
true branch of `x != 5` on pre-range `[0, +inf)` still contains the
excluded value `5` (it is the whole of `[0, +inf)`), and the false
branch of `x == 5` on pre-range `[2, 10)` also contains `5`: in both
cases the complement is not an interval and the modelled narrowing
returns its interval hull, which is strictly larger than the exact
intersection. -/
theorem C2_hull_counterexample :
    Range.mem 5 (Range.narrow ⟨0, none⟩ Cmp.ne 5).1
    ∧ Cmp.holds Cmp.ne 5 5 = false
    ∧ (Range.narrow ⟨0, none⟩ Cmp.ne 5).1 = ⟨0, none⟩
    ∧ Range.mem 5 (Range.narrow ⟨2, some 10⟩ Cmp.eq 5).2
    ∧ Cmp.holds Cmp.eq 5 5 = true := by
  refine ⟨by decide, by decide, by decide, by decide, by decide⟩

/-- C2 (amended): comparison narrowing is exact whenever the implied
half-space and its complement are intervals, and a sound interval hull
otherwise — for a variable with pre-range `[0, +inf)` and predicate
`x >= 0 && x < N` the true-branch narrowed range equals `[0, N)` and
the false-branch narrowed range equals `[N, +inf)`; for an arbitrary
pre-range the two results of the compound predicate are exactly the
intersections of the pre-range with the predicate's half-space and
complement; each ordered relational predicate (`<`, `<=`, `>`, `>=`,
both branches), the true branch of `==` and the false branch of `!=`
against a constant are likewise exact intersections; for the false
branch of `==` and the true branch of `!=`, whose exact complements
are not intervals, the narrowed range is a sound over-approximation:
it contains every value of the pre-range satisfying the branch
condition. -/
theorem C2_narrowing_exact :
    (∀ N : ℕ,
      Range.narrowGeAndLt ⟨0, none⟩ 0 N = (⟨0, some N⟩, ⟨N, none⟩))
    ∧ (∀ (R : Range) (N v : ℕ),
        (Range.mem v (Range.narrowGeAndLt R 0 N).1 ↔ Range.mem v R ∧ v < N)
      ∧ (Range.mem v (Range.narrowGeAndLt R 0 N).2 ↔ Range.mem v R ∧ N ≤ v))
    ∧ (∀ (R : Range) (k v : ℕ),
        (Range.mem v (Range.narrow R .lt k).1 ↔ Range.mem v R ∧ v < k)
      ∧ (Range.mem v (Range.narrow R .lt k).2 ↔ Range.mem v R ∧ ¬v < k)
      ∧ (Range.mem v (Range.narrow R .le k).1 ↔ Range.mem v R ∧ v ≤ k)
      ∧ (Range.mem v (Range.narrow R .le k).2 ↔ Range.mem v R ∧ ¬v ≤ k)
      ∧ (Range.mem v (Range.narrow R .gt k).1 ↔ Range.mem v R ∧ k < v)
      ∧ (Range.mem v (Range.narrow R .gt k).2 ↔ Range.mem v R ∧ ¬k < v)
      ∧ (Range.mem v (Range.narrow R .ge k).1 ↔ Range.mem v R ∧ k ≤ v)
      ∧ (Range.mem v (Range.narrow R .ge k).2 ↔ Range.mem v R ∧ ¬k ≤ v)
      ∧ (Range.mem v (Range.narrow R .eq k).1 ↔ Range.mem v R ∧ v = k)
      ∧ (Range.mem v (Range.narrow R .ne k).2 ↔ Range.mem v R ∧ v = k))
    ∧ (∀ (R : Range) (k v : ℕ),
        (Range.mem v R → ¬v = k → Range.mem v (Range.narrow R .ne k).1)
      ∧ (Range.mem v R → ¬v = k → Range.mem v (Range.narrow R .eq k).2)) := by
  refine ⟨?_, ?_, ?_, ?_⟩
  · intro N
    simp only [Range.narrowGeAndLt, Range.inter, Range.union, Range.isEmpty]
    norm_num
  · intro R N v
    have hempty : (Range.inter R ⟨0, some 0⟩).isEmpty = true := by
      unfold Range.inter Range.isEmpty
      cases R.hi <;> simp
    constructor
    · rw [Range.narrowGeAndLt]
      simp only [Range.mem_inter_iff]
      unfold Range.mem
      cases hR : R.hi <;> simp_all <;> omega
    · rw [Range.narrowGeAndLt]
      show Range.mem v (Range.union _ _) ↔ _
      rw [Range.union, hempty]
      simp only [if_true]
      rw [Range.mem_inter_iff]
      unfold Range.mem
      cases hR : R.hi <;> simp_all <;> omega
  · intro R k v
    refine ⟨?_, ?_, ?_, ?_, ?_, ?_, ?_, ?_, ?_, ?_⟩ <;>
      simp only [Range.narrow] <;> rw [Range.mem_inter_iff] <;>
      unfold Range.mem <;> simp <;> omega
  · intro R k v
    constructor
    · intro hm hne
      exact Range.narrow_true_sound hm (by simp [Cmp.holds, hne])
    · intro hm hne
      exact Range.narrow_false_sound hm (by simp [Cmp.holds, hne])

/-- Concrete instance of the hull-soundness clauses of the amended C2:
the value `6` of pre-range `[0, +inf)` satisfies `x != 5`, so it lies
in the true-branch narrowing, and satisfies the false branch of
`x == 5`, so it lies in that narrowing. -/
theorem C2_narrowing_exact_witness :
    Range.mem 6 (Range.narrow ⟨0, none⟩ Cmp.ne 5).1
    ∧ Range.mem 6 (Range.narrow ⟨0, none⟩ Cmp.eq 5).2 :=
  ⟨(C2_narrowing_exact.2.2.2 ⟨0, none⟩ 5 6).1 (by decide) (by decide),
   (C2_narrowing_exact.2.2.2 ⟨0, none⟩ 5 6).2 (by decide) (by decide)⟩

/-! Iterator trip-count bounds (spec section 4.3, step 2). -/

/-- Ceiling division on naturals, `ceil(a / b)`. -/
def ceilDiv (a b : ℕ) : ℕ :=
  (a + b - 1) / b

/-- Modelled from the spec: the iterator-analysis minimum trip count of
section 4.3 step 2, `minCount = max(0, ceil((limitMin − startMax) / dMax))`
(truncated natural subtraction realises the clamp at zero). -/
def iterMinCount (startMax dMax limitMin : ℕ) : ℕ :=
  ceilDiv (limitMin - startMax) dMax

/-- Modelled from the spec: the iterator-analysis maximum trip count of
section 4.3 step 2 exactly as stated, with floor rounding:
`maxCount = max(0, floor((limitMax − startMin) / dMin))`. -/
def iterMaxCountFloor (startMin dMin limitMax : ℕ) : ℕ :=
  (limitMax - startMin) / dMin

/-- Maximum trip count with outward (ceiling) rounding,
`max(0, ceil((limitMax − startMin) / dMin))`. -/
def iterMaxCountCeil (startMin dMin limitMax : ℕ) : ℕ :=
  ceilDiv (limitMax - startMin) dMin

/-- Modelled from the spec: the exact number of iterations of a loop with
a strictly increasing iterator and exit predicate `iterator < limit`
(section 4.3) — starting at `s`, the iterator advances by the successive
per-iteration deltas `ds`; the result is the number of iterations until
the iterator reaches `limit`, or `none` if the supplied delta list is
exhausted first. -/
def tripSteps : List ℕ → ℕ → ℕ → Option ℕ
  | ds, s, limit =>
    if limit ≤ s then some 0
    else
      match ds with
      | [] => none
      | d :: rest => (tripSteps rest (s + d) limit).map (fun m => m + 1)

theorem ceilDiv_le_iff {a b n : ℕ} (hb : 0 < b) :
    ceilDiv a b ≤ n ↔ a ≤ n * b := by
  unfold ceilDiv
  rw [Nat.div_le_iff_le_mul_add_pred hb]
  constructor <;> intro h
  · have := Nat.mul_comm b n
    omega
  · have := Nat.mul_comm b n
    omega

theorem tripSteps_reaches {ds : List ℕ} {s limit n dMax : ℕ}
    (h : tripSteps ds s limit = some n) (hd : ∀ d ∈ ds, d ≤ dMax) :
    limit - s ≤ n * dMax := by
  induction ds generalizing s n with
  | nil =>
    rw [tripSteps] at h
    by_cases hls : limit ≤ s
    · omega
    · simp [hls] at h
  | cons d rest ih =>
    rw [tripSteps] at h
    by_cases hls : limit ≤ s
    · simp [hls] at h
      omega
    · simp [hls, Option.map_eq_some'] at h
      obtain ⟨m, hm, hn⟩ := h
      have hrec := ih hm (fun x hx => hd x (List.mem_cons_of_mem _ hx))
      have hdm : d ≤ dMax := hd d (List.mem_cons_self d rest)
      subst hn
      have : (m + 1) * dMax = m * dMax + dMax := by ring
      omega

theorem tripSteps_not_overshoot {ds : List ℕ} {s limit n dMin : ℕ}
    (h : tripSteps ds s limit = some n) (hd : ∀ d ∈ ds, dMin ≤ d)
    (hpos : 0 < dMin) :
    n * dMin < (limit - s) + dMin := by
  induction ds generalizing s n with
  | nil =>
    rw [tripSteps] at h
    by_cases hls : limit ≤ s
    · simp [hls] at h
      obtain rfl : n = 0 := by omega
      omega
    · simp [hls] at h
  | cons d rest ih =>
    rw [tripSteps] at h
    by_cases hls : limit ≤ s
    · simp [hls] at h
      obtain rfl : n = 0 := by omega
      omega
    · simp [hls, Option.map_eq_some'] at h
      obtain ⟨m, hm, hn⟩ := h
      have hrec := ih hm (fun x hx => hd x (List.mem_cons_of_mem _ hx))
      have hdm : dMin ≤ d := hd d (List.mem_cons_self d rest)
      subst hn
      rcases Nat.eq_zero_or_pos m with rfl | hmpos
      · omega
      · have hle : dMin ≤ m * dMin := Nat.le_mul_of_pos_left dMin hmpos
        have hexp : (m + 1) * dMin = m * dMin + dMin := by ring
        omega

/-- C3 counterexample: the stated formula
`maxCount = max(0, floor((limitMax − startMin) / dMin))` does not bound
the trip count.  For the loop with start value `0` (start range
`[0, 0]`), per-iteration delta exactly `2` (delta range `[2, 2]`,
`dMin = 2 > 0`) and exit predicate `iterator < limit` with
`limit = 5` (limit range `[5, 5]`), the loop runs `3` iterations
(`0 → 2 → 4 → 6`), but the claimed formula yields
`floor((5 − 0) / 2) = 2 < 3`. -/
theorem C3_floor_formula_counterexample :
    tripSteps [2, 2, 2] 0 5 = some 3
    ∧ iterMinCount 0 2 5 = 3
    ∧ iterMaxCountFloor 0 2 5 = 2
    ∧ ¬3 ≤ iterMaxCountFloor 0 2 5 := by
  refine ⟨by decide, by decide, by decide, by decide⟩

/-- C3 (amended): with outward rounding on both sides — ceiling for the
minimum count and ceiling (not floor) for the maximum count — the
derived trip-count range is sound: for every loop whose iterator starts
at `s ∈ [startMin, startMax]`, advances each iteration by a delta in
`[dMin, dMax]` with `dMin > 0`, and exits at `iterator < limit` with
`limit ∈ [limitMin, limitMax]`, the exact iteration count `n` satisfies
`max(0, ceil((limitMin − startMax) / dMax)) ≤ n` and
`n ≤ max(0, ceil((limitMax − startMin) / dMin))`. -/
theorem C3_trip_count_bounds {ds : List ℕ} {s limit n : ℕ}
    {startMin startMax dMin dMax limitMin limitMax : ℕ}
    (hdpos : 0 < dMin)
    (hdlo : ∀ d ∈ ds, dMin ≤ d) (hdhi : ∀ d ∈ ds, d ≤ dMax)
    (hs1 : startMin ≤ s) (hs2 : s ≤ startMax)
    (hl1 : limitMin ≤ limit) (hl2 : limit ≤ limitMax)
    (h : tripSteps ds s limit = some n) :
    iterMinCount startMax dMax limitMin ≤ n
    ∧ n ≤ iterMaxCountCeil startMin dMin limitMax := by
  constructor
  · have hre := tripSteps_reaches h hdhi
    rcases Nat.eq_zero_or_pos dMax with rfl | hdmax
    · unfold iterMinCount ceilDiv
      simp
    · unfold iterMinCount
      rw [ceilDiv_le_iff hdmax]
      omega
  · have hov := tripSteps_not_overshoot h hdlo hdpos
    unfold iterMaxCountCeil ceilDiv
    rw [Nat.le_div_iff_mul_le hdpos]
    omega

/-! Statement language, concrete semantics and abstract analyzer
(spec sections 4.1–4.3, 4.5 and 6); none of this engine exists as
source code in the repository, so it is modelled from the spec. -/

/-- Modelled from the spec: the diagnostics taxonomy of section 7. -/
inductive Diag
  | NameCollision
  | UnresolvedIdentifier
  | TypeMismatch
  | NonMonotonicIterator
  | ConflictingIteratorMutation
  | UnboundedArray
  | IncompleteInitialization
  | IndexOutOfProvenRange
  | IllegalStructuralWrite
deriving DecidableEq, Repr

/-- Modelled from the spec: expressions over natural-valued variables
(Literal, Identifier and arithmetic nodes of the input AST,
section 6). -/
inductive Expr
  | lit (n : ℕ)
  | var (x : String)
  | add (a b : Expr)
  | mul (a b : Expr)

/-- Modelled from the spec: a branch predicate — a relational comparison
of a variable against a constant (section 4.1). -/
structure Pred where
  x : String
  c : Cmp
  k : ℕ

/-- Modelled from the spec: statements of the analyzed AST (section 6)
with loops in the canonical increment/compare form of README
section 4.1: `loop i lim body` is
`i = 0; while (i < lim) { body; i += 1 }` (the inlined form of
`for (i : count(lim))`). -/
inductive Stmt
  | skip
  | assign (x : String) (e : Expr)
  | incr (x : String) (k : ℕ)
  | seq (s1 s2 : Stmt)
  | ite (p : Pred) (s1 s2 : Stmt)
  | loop (i : String) (lim : String) (body : Stmt)

/-- A concrete runtime state: every variable holds a natural value. -/
def State := String → ℕ

/-- Pointwise state update. -/
def State.update (σ : State) (x : String) (v : ℕ) : State :=
  fun y => if y = x then v else σ y

/-- Concrete expression evaluation. -/
def evalE : Expr → State → ℕ
  | .lit n, _ => n
  | .var x, σ => σ x
  | .add a b, σ => evalE a σ + evalE b σ
  | .mul a b, σ => evalE a σ * evalE b σ

/-- Concrete predicate evaluation. -/
def evalP (p : Pred) (σ : State) : Bool :=
  p.c.holds (σ p.x) p.k

/-- Iterate an indexed state transformer: `iterN f n` runs
`f 0, f 1, …, f (n-1)` in order. -/
def iterN (f : ℕ → State → State) : ℕ → State → State
  | 0, σ => σ
  | n + 1, σ => f n (iterN f n σ)

/-- Concrete big-step semantics.  A loop reads its limit once on entry
(the `count(lim)` generator form), runs the body with the iterator set
to `0, 1, …, n-1`, and leaves the iterator equal to the limit. -/
def exec : Stmt → State → State
  | .skip, σ => σ
  | .assign x e, σ => σ.update x (evalE e σ)
  | .incr x k, σ => σ.update x (σ x + k)
  | .seq s1 s2, σ => exec s2 (exec s1 σ)
  | .ite p s1 s2, σ => if evalP p σ then exec s1 σ else exec s2 σ
  | .loop i lim body, σ =>
      (iterN (fun k σ' => exec body (σ'.update i k)) (σ lim) σ).update i (σ lim)

/-- Does the statement write to the variable (directly, or as the
iterator of some loop)? -/
def modifiesIn : Stmt → String → Bool
  | .skip, _ => false
  | .assign x _, v => x == v
  | .incr x _, v => x == v
  | .seq s1 s2, v => modifiesIn s1 v || modifiesIn s2 v
  | .ite _ s1 s2, v => modifiesIn s1 v || modifiesIn s2 v
  | .loop i _ body, v => i == v || modifiesIn body v

/-- Does some loop nested inside the statement write to the variable?
(The check behind `ConflictingIteratorMutation`, spec section 4.3
step 1.) -/
def nestedLoopModifies : Stmt → String → Bool
  | .skip, _ => false
  | .assign _ _, _ => false
  | .incr _ _, _ => false
  | .seq s1 s2, v => nestedLoopModifies s1 v || nestedLoopModifies s2 v
  | .ite _ s1 s2, v => nestedLoopModifies s1 v || nestedLoopModifies s2 v
  | .loop i _ body, v => i == v || modifiesIn body v

/-- The limit variables of every loop nested in the statement. -/
def loopLimits : Stmt → List String
  | .skip => []
  | .assign _ _ => []
  | .incr _ _ => []
  | .seq s1 s2 => loopLimits s1 ++ loopLimits s2
  | .ite _ s1 s2 => loopLimits s1 ++ loopLimits s2
  | .loop _ lim body => lim :: loopLimits body

/-- An abstract environment: the fact-table snapshot mapping every
variable to its current range (spec section 8, "fact table"). -/
def AbsEnv := String → Range

/-- Pointwise abstract update. -/
def AbsEnv.update (A : AbsEnv) (x : String) (r : Range) : AbsEnv :=
  fun y => if y = x then r else A y

/-- Abstract expression evaluation by interval arithmetic
(spec section 4.1). -/
def evalR : Expr → AbsEnv → Range
  | .lit n, _ => ⟨n, some (n + 1)⟩
  | .var x, A => A x
  | .add a b, A => Range.add (evalR a A) (evalR b A)
  | .mul a b, A => Range.mul (evalR a A) (evalR b A)

/-- Sequential composition of two per-iteration effects (each an
increment by a range, `none` meaning unknown). -/
def effSeq : Option Range → Option Range → Option Range
  | some a, some b => some (Range.add a b)
  | _, _ => none

/-- Branch hull of two per-iteration effects. -/
def effAlt : Option Range → Option Range → Option Range
  | some a, some b => some (Range.union a b)
  | _, _ => none

/-- Modelled from the spec: "analyze the body once, symbolically, to
derive the net per-iteration delta range" (section 4.3 step 1).  For
every variable the result is `some δ` when one body execution adds an
amount inside `δ` to it, and `none` when the net effect is unknown (the
post-loop range then falls back to the unbounded natural range).  A
nested loop contributes its own count range multiplied by its body
delta; a nested loop that writes to its own iterator via a deeper loop
fails with `ConflictingIteratorMutation`, and a non-monotonic or
unstable nested iterator fails with `NonMonotonicIterator`. -/
def bodyEff (A : AbsEnv) : Stmt → Except Diag (String → Option Range)
  | .skip => .ok fun _ => some ⟨0, some 1⟩
  | .assign x _ => .ok fun v => if v = x then none else some ⟨0, some 1⟩
  | .incr x k => .ok fun v => if v = x then some ⟨k, some (k + 1)⟩ else some ⟨0, some 1⟩
  | .seq s1 s2 => do
      let e1 ← bodyEff A s1
      let e2 ← bodyEff A s2
      return fun v => effSeq (e1 v) (e2 v)
  | .ite _ s1 s2 => do
      let e1 ← bodyEff A s1
      let e2 ← bodyEff A s2
      return fun v => effAlt (e1 v) (e2 v)
  | .loop j lim body =>
      if nestedLoopModifies body j then .error .ConflictingIteratorMutation
      else if modifiesIn body j || modifiesIn body lim then .error .NonMonotonicIterator
      else do
        let e ← bodyEff A body
        return fun v =>
          if v = j then none
          else (e v).map (fun δ => Range.mul (A lim) δ)

/-- Modelled from the spec: phase-1 analysis (sections 4.1–4.3, 4.5).
Assignments write the abstract value into the environment; a
conditional narrows the tested variable per branch, analyzes every
branch that can be taken and merges by pointwise union; a loop first
rejects iterator mutation by nested loops (`ConflictingIteratorMutation`)
and non-monotonic or unstable iterators/limits (`NonMonotonicIterator`),
then derives the body's per-iteration delta and propagates every
variable across the `[minCount, maxCount]` repetitions given by the
limit's range, unioning with the pre-loop environment when zero
iterations are possible. -/
def analyze : Stmt → AbsEnv → Except Diag AbsEnv
  | .skip, A => .ok A
  | .assign x e, A => .ok (A.update x (evalR e A))
  | .incr x k, A => .ok (A.update x (Range.add (A x) ⟨k, some (k + 1)⟩))
  | .seq s1 s2, A => do
      let A1 ← analyze s1 A
      analyze s2 A1
  | .ite p s1 s2, A =>
      let rt := (Range.narrow (A p.x) p.c p.k).1
      let rf := (Range.narrow (A p.x) p.c p.k).2
      if rt.isEmpty && rf.isEmpty then .ok A
      else if rf.isEmpty then analyze s1 (A.update p.x rt)
      else if rt.isEmpty then analyze s2 (A.update p.x rf)
      else do
        let T ← analyze s1 (A.update p.x rt)
        let F ← analyze s2 (A.update p.x rf)
        return fun v => Range.union (T v) (F v)
  | .loop i lim body, A =>
      if nestedLoopModifies body i then .error .ConflictingIteratorMutation
      else if modifiesIn body i || modifiesIn body lim then .error .NonMonotonicIterator
      else if (loopLimits body).any (fun v => modifiesIn body v) || (loopLimits body).any (fun v => v == i) then
        .error .NonMonotonicIterator
      else do
        let E ← bodyEff A body
        let L := A lim
        let A1 := A.update i ⟨0, some 1⟩
        let Ap : AbsEnv := fun v =>
          if v = i then L
          else
            match E v with
            | some δ => Range.add (A v) (Range.mul L δ)
            | none => ⟨0, none⟩
        return if L.lo = 0 then (fun v => Range.union (Ap v) (A1 v)) else Ap

/-- A concrete state lies inside an abstract environment (the
concretization relation of the interval domain). -/
def memEnv (σ : State) (A : AbsEnv) : Prop :=
  ∀ x, Range.mem (σ x) (A x)

theorem evalR_sound {σ : State} {A : AbsEnv} (hγ : memEnv σ A) :
    ∀ e : Expr, Range.mem (evalE e σ) (evalR e A) := by
  intro e
  induction e with
  | lit n =>
    refine ⟨Nat.le_refl n, ?_⟩
    intro h hh
    simp only [evalR] at hh
    cases hh
    exact Nat.lt_succ_self n
  | var x => exact hγ x
  | add a b iha ihb => exact Range.mem_add iha ihb
  | mul a b iha ihb => exact Range.mem_mul iha ihb

theorem exec_unmodified {s : Stmt} {v : String} (hm : modifiesIn s v = false) :
    ∀ σ : State, exec s σ v = σ v := by
  induction s with
  | skip => intro σ; rfl
  | assign x e =>
    intro σ
    simp only [modifiesIn, beq_eq_false_iff_ne, ne_eq] at hm
    simp [exec, State.update]
    intro h
    exact absurd h.symm hm
  | incr x k =>
    intro σ
    simp only [modifiesIn, beq_eq_false_iff_ne, ne_eq] at hm
    simp [exec, State.update]
    intro h
    exact absurd h.symm hm
  | seq s1 s2 ih1 ih2 =>
    intro σ
    simp only [modifiesIn, Bool.or_eq_false_iff] at hm
    simp only [exec]
    rw [ih2 hm.2, ih1 hm.1]
  | ite p s1 s2 ih1 ih2 =>
    intro σ
    simp only [modifiesIn, Bool.or_eq_false_iff] at hm
    simp only [exec]
    by_cases hp : evalP p σ <;> simp [hp, ih1 hm.1, ih2 hm.2]
  | loop i lim body ih =>
    intro σ
    simp only [modifiesIn, Bool.or_eq_false_iff, beq_eq_false_iff_ne, ne_eq] at hm
    obtain ⟨hiv, hbody⟩ := hm
    have hvi : ¬(v = i) := fun h => hiv h.symm
    simp only [exec, State.update, if_neg hvi]
    generalize σ lim = n
    induction n with
    | zero => rfl
    | succ m ihm =>
      simp only [iterN]
      rw [ih hbody]
      simp only [State.update, if_neg hvi]
      exact ihm

theorem mem_mul_of_gain {n D : ℕ} {L δ : Range} (hn : Range.mem n L)
    (h1 : n * δ.lo ≤ D) (h2 : ∀ h, δ.hi = some h → D + n ≤ n * h) :
    Range.mem D (Range.mul L δ) := by
  obtain ⟨hn1, hn2⟩ := hn
  constructor
  · show (Range.mul L δ).lo ≤ D
    have : L.lo * δ.lo ≤ n * δ.lo := Nat.mul_le_mul_right _ hn1
    simp only [Range.mul]
    omega
  · intro h hh
    simp only [Range.mul] at hh
    cases hL : L.hi with
    | none => simp [hL] at hh
    | some Lh =>
      cases hd : δ.hi with
      | none => simp [hL, hd] at hh
      | some dh =>
        simp only [hL, hd, Option.some.injEq] at hh
        have hnLh : n < Lh := hn2 Lh hL
        have hD := h2 dh hd
        cases dh with
        | zero =>
          simp at hD
          omega
        | succ d =>
          have hstep : n * (d + 1) = n * d + n := by ring
          have hmono : n * d ≤ (Lh - 1) * d :=
            Nat.mul_le_mul_right _ (by omega)
          simp only [Nat.add_sub_cancel] at hh
          omega

theorem iterN_gain {f : ℕ → State → State} {P : State → Prop} {x : String}
    {δ : Range} {σ : State}
    (hP : P σ) (hPf : ∀ k σ', P σ' → P (f k σ'))
    (hstep : ∀ k σ', P σ' → ∃ d, Range.mem d δ ∧ f k σ' x = σ' x + d) :
    ∀ n : ℕ, P (iterN f n σ) ∧
      ∃ D, iterN f n σ x = σ x + D ∧ n * δ.lo ≤ D ∧
        ∀ h, δ.hi = some h → D + n ≤ n * h := by
  intro n
  induction n with
  | zero =>
    refine ⟨hP, 0, by simp [iterN], by simp, ?_⟩
    intro h _
    simp
  | succ m ihm =>
    obtain ⟨hPm, D, hDeq, hDlo, hDhi⟩ := ihm
    obtain ⟨d, hdmem, hdeq⟩ := hstep m (iterN f m σ) hPm
    refine ⟨hPf m _ hPm, D + d, ?_, ?_, ?_⟩
    · simp only [iterN]
      rw [hdeq, hDeq]
      ring
    · obtain ⟨hd1, _⟩ := hdmem
      have hexp : (m + 1) * δ.lo = m * δ.lo + δ.lo := by ring
      omega
    · intro h hh
      have hd2 := hdmem.2 h hh
      have hD2 := hDhi h hh
      have hexp : (m + 1) * h = m * h + h := by ring
      omega

theorem exceptBind_ok {ε α β : Type} {m : Except ε α} {f : α → Except ε β}
    {b : β} (h : (m >>= f) = .ok b) : ∃ a, m = .ok a ∧ f a = .ok b := by
  cases m with
  | error e => simp [Bind.bind, Except.bind] at h
  | ok a =>
    refine ⟨a, rfl, ?_⟩
    simpa [Bind.bind, Except.bind] using h

theorem bodyEff_sound {s : Stmt} {A : AbsEnv} :
    ∀ {E : String → Option Range}, bodyEff A s = .ok E →
    (∀ v ∈ loopLimits s, modifiesIn s v = false) →
    ∀ {σ : State}, (∀ v ∈ loopLimits s, Range.mem (σ v) (A v)) →
    ∀ x δ, E x = some δ → ∃ d, Range.mem d δ ∧ exec s σ x = σ x + d := by
  induction s with
  | skip =>
    intro E hE _ σ _ x δ hx
    simp only [bodyEff, Except.ok.injEq] at hE
    subst hE
    simp only [Option.some.injEq] at hx
    subst hx
    exact ⟨0, ⟨Nat.le_refl 0, fun h hh => by cases hh; omega⟩, rfl⟩
  | assign y e =>
    intro E hE _ σ _ x δ hx
    simp only [bodyEff, Except.ok.injEq] at hE
    subst hE
    by_cases hxy : x = y
    · simp [hxy] at hx
    · simp only [if_neg hxy, Option.some.injEq] at hx
      subst hx
      refine ⟨0, ⟨Nat.le_refl 0, fun h hh => by cases hh; omega⟩, ?_⟩
      simp [exec, State.update, hxy]
  | incr y k =>
    intro E hE _ σ _ x δ hx
    simp only [bodyEff, Except.ok.injEq] at hE
    subst hE
    by_cases hxy : x = y
    · simp only [if_pos hxy, Option.some.injEq] at hx
      subst hx
      refine ⟨k, ⟨Nat.le_refl k, fun h hh => by cases hh; omega⟩, ?_⟩
      subst hxy
      simp [exec, State.update]
    · simp only [if_neg hxy, Option.some.injEq] at hx
      subst hx
      refine ⟨0, ⟨Nat.le_refl 0, fun h hh => by cases hh; omega⟩, ?_⟩
      simp [exec, State.update, hxy]
  | seq s1 s2 ih1 ih2 =>
    intro E hE hmods σ hγ x δ hx
    rw [bodyEff] at hE
    obtain ⟨e1, he1, hE⟩ := exceptBind_ok hE
    obtain ⟨e2, he2, hE⟩ := exceptBind_ok hE
    simp only [pure, Except.pure, Except.ok.injEq] at hE
    subst hE
    simp only [effSeq] at hx
    cases h1 : e1 x with
    | none => rw [h1] at hx; cases hx
    | some δ1 =>
      cases h2 : e2 x with
      | none => rw [h1, h2] at hx; cases hx
      | some δ2 =>
        rw [h1, h2] at hx
        simp only [Option.some.injEq] at hx
        subst hx
        have hm1 : ∀ v ∈ loopLimits s1, modifiesIn s1 v = false := by
          intro v hv
          have := hmods v (by simp [loopLimits, List.mem_append]; exact Or.inl hv)
          simp only [modifiesIn, Bool.or_eq_false_iff] at this
          exact this.1
        have hm2 : ∀ v ∈ loopLimits s2, modifiesIn s2 v = false := by
          intro v hv
          have := hmods v (by simp [loopLimits, List.mem_append]; exact Or.inr hv)
          simp only [modifiesIn, Bool.or_eq_false_iff] at this
          exact this.2
        have hγ1 : ∀ v ∈ loopLimits s1, Range.mem (σ v) (A v) := by
          intro v hv
          exact hγ v (by simp [loopLimits, List.mem_append]; exact Or.inl hv)
        obtain ⟨d1, hd1mem, hd1⟩ := ih1 he1 hm1 hγ1 x δ1 h1
        have hγ2 : ∀ v ∈ loopLimits s2, Range.mem (exec s1 σ v) (A v) := by
          intro v hv
          have hv1 : modifiesIn s1 v = false := by
            have := hmods v (by simp [loopLimits, List.mem_append]; exact Or.inr hv)
            simp only [modifiesIn, Bool.or_eq_false_iff] at this
            exact this.1
          rw [exec_unmodified hv1]
          exact hγ v (by simp [loopLimits, List.mem_append]; exact Or.inr hv)
        obtain ⟨d2, hd2mem, hd2⟩ := ih2 he2 hm2 hγ2 x δ2 h2
        refine ⟨d1 + d2, Range.mem_add hd1mem hd2mem, ?_⟩
        simp only [exec]
        rw [hd2, hd1]
        ring
  | ite p s1 s2 ih1 ih2 =>
    intro E hE hmods σ hγ x δ hx
    rw [bodyEff] at hE
    obtain ⟨e1, he1, hE⟩ := exceptBind_ok hE
    obtain ⟨e2, he2, hE⟩ := exceptBind_ok hE
    simp only [pure, Except.pure, Except.ok.injEq] at hE
    subst hE
    simp only [effAlt] at hx
    cases h1 : e1 x with
    | none => rw [h1] at hx; cases hx
    | some δ1 =>
      cases h2 : e2 x with
      | none => rw [h1, h2] at hx; cases hx
      | some δ2 =>
        rw [h1, h2] at hx
        simp only [Option.some.injEq] at hx
        subst hx
        have hm1 : ∀ v ∈ loopLimits s1, modifiesIn s1 v = false := by
          intro v hv
          have := hmods v (by simp [loopLimits, List.mem_append]; exact Or.inl hv)
          simp only [modifiesIn, Bool.or_eq_false_iff] at this
          exact this.1
        have hm2 : ∀ v ∈ loopLimits s2, modifiesIn s2 v = false := by
          intro v hv
          have := hmods v (by simp [loopLimits, List.mem_append]; exact Or.inr hv)
          simp only [modifiesIn, Bool.or_eq_false_iff] at this
          exact this.2
        have hγ1 : ∀ v ∈ loopLimits s1, Range.mem (σ v) (A v) := by
          intro v hv
          exact hγ v (by simp [loopLimits, List.mem_append]; exact Or.inl hv)
        have hγ2 : ∀ v ∈ loopLimits s2, Range.mem (σ v) (A v) := by
          intro v hv
          exact hγ v (by simp [loopLimits, List.mem_append]; exact Or.inr hv)
        simp only [exec]
        by_cases hp : evalP p σ
        · obtain ⟨d, hdmem, hd⟩ := ih1 he1 hm1 hγ1 x δ1 h1
          refine ⟨d, Range.mem_union_left _ hdmem, ?_⟩
          simp [hp, hd]
        · obtain ⟨d, hdmem, hd⟩ := ih2 he2 hm2 hγ2 x δ2 h2
          refine ⟨d, Range.mem_union_right _ hdmem, ?_⟩
          simp [hp, hd]
  | loop j lim body ih =>
    intro E hE hmods σ hγ x δ hx
    rw [bodyEff] at hE
    by_cases hnest : nestedLoopModifies body j = true
    · simp [hnest] at hE
    · rw [Bool.not_eq_true] at hnest
      rw [if_neg (by simp [hnest])] at hE
      by_cases hmj : (modifiesIn body j || modifiesIn body lim) = true
      · simp [hmj] at hE
      · rw [Bool.not_eq_true, Bool.or_eq_false_iff] at hmj
        obtain ⟨hmbj, hmblim⟩ := hmj
        rw [if_neg (by simp [hmbj, hmblim])] at hE
        obtain ⟨e, he, hE⟩ := exceptBind_ok hE
        simp only [pure, Except.pure, Except.ok.injEq] at hE
        subst hE
        by_cases hxj : x = j
        · simp [hxj] at hx
        · simp only [if_neg hxj, Option.map_eq_some'] at hx
          obtain ⟨δ0, he0, hδ⟩ := hx
          subst hδ
          have hjlim : ¬(j = lim) ∧ modifiesIn body lim = false := by
            have := hmods lim (by simp [loopLimits])
            simp only [modifiesIn, Bool.or_eq_false_iff, beq_eq_false_iff_ne, ne_eq] at this
            exact this
          have hjtail : ∀ v ∈ loopLimits body, ¬(j = v) ∧ modifiesIn body v = false := by
            intro v hv
            have := hmods v (by simp [loopLimits, hv])
            simp only [modifiesIn, Bool.or_eq_false_iff, beq_eq_false_iff_ne, ne_eq] at this
            exact this
          have hmbody : ∀ v ∈ loopLimits body, modifiesIn body v = false :=
            fun v hv => (hjtail v hv).2
          have hγbody : ∀ v ∈ loopLimits body, Range.mem (σ v) (A v) :=
            fun v hv => hγ v (by simp [loopLimits, hv])
          have hγlim : Range.mem (σ lim) (A lim) := hγ lim (by simp [loopLimits])
          have hgain := iterN_gain
            (f := fun k σ' => exec body (σ'.update j k))
            (P := fun σ' => ∀ v ∈ loopLimits body, σ' v = σ v)
            (x := x) (δ := δ0) (σ := σ)
            (fun v _ => rfl)
            (by
              intro k σ' hPσ v hv
              show exec body (σ'.update j k) v = σ v
              rw [exec_unmodified (hmbody v hv) (σ'.update j k)]
              have hvj : ¬(v = j) := fun h => (hjtail v hv).1 h.symm
              simp only [State.update, if_neg hvj]
              exact hPσ v hv)
            (by
              intro k σ' hPσ
              have hγ' : ∀ v ∈ loopLimits body, Range.mem ((σ'.update j k) v) (A v) := by
                intro v hv
                have hvj : ¬(v = j) := fun h => (hjtail v hv).1 h.symm
                simp only [State.update, if_neg hvj]
                rw [hPσ v hv]
                exact hγbody v hv
              obtain ⟨d, hdmem, hd⟩ := ih he hmbody hγ' x δ0 he0
              refine ⟨d, hdmem, ?_⟩
              show exec body (σ'.update j k) x = σ' x + d
              rw [hd]
              simp only [State.update, if_neg hxj]) (σ lim)
          obtain ⟨_, D, hDeq, hDlo, hDhi⟩ := hgain
          refine ⟨D, mem_mul_of_gain hγlim hDlo hDhi, ?_⟩
          simp only [exec, State.update, if_neg hxj]
          exact hDeq

theorem analyze_sound {s : Stmt} :
    ∀ {A A' : AbsEnv}, analyze s A = .ok A' →
    ∀ {σ : State}, memEnv σ A → memEnv (exec s σ) A' := by
  induction s with
  | skip =>
    intro A A' h σ hγ
    simp only [analyze, Except.ok.injEq] at h
    subst h
    exact hγ
  | assign x e =>
    intro A A' h σ hγ
    simp only [analyze, Except.ok.injEq] at h
    subst h
    intro y
    simp only [exec, State.update, AbsEnv.update]
    by_cases hyx : y = x
    · simp only [if_pos hyx]
      exact evalR_sound hγ e
    · simp only [if_neg hyx]
      exact hγ y
  | incr x k =>
    intro A A' h σ hγ
    simp only [analyze, Except.ok.injEq] at h
    subst h
    intro y
    simp only [exec, State.update, AbsEnv.update]
    by_cases hyx : y = x
    · simp only [if_pos hyx]
      subst hyx
      exact Range.mem_add (hγ y) ⟨Nat.le_refl k, fun h hh => by cases hh; omega⟩
    · simp only [if_neg hyx]
      exact hγ y
  | seq s1 s2 ih1 ih2 =>
    intro A A' h σ hγ
    rw [analyze] at h
    obtain ⟨A1, h1, h2⟩ := exceptBind_ok h
    simp only [exec]
    exact ih2 h2 (ih1 h1 hγ)
  | ite p s1 s2 ih1 ih2 =>
    intro A A' h σ hγ
    simp only [analyze] at h
    set rt := (Range.narrow (A p.x) p.c p.k).1 with hrt
    set rf := (Range.narrow (A p.x) p.c p.k).2 with hrf
    by_cases hp : evalP p σ
    · have htrue : Range.mem (σ p.x) rt := by
        rw [hrt]
        exact Range.narrow_true_sound (hγ p.x) hp
      have hne : rt.isEmpty = false := Range.not_isEmpty_of_mem htrue
      have hγt : memEnv σ (A.update p.x rt) := by
        intro y
        simp only [AbsEnv.update]
        by_cases hyx : y = p.x
        · simp only [if_pos hyx]
          subst hyx
          exact htrue
        · simp only [if_neg hyx]
          exact hγ y
      rw [hne] at h
      simp only [Bool.false_and, Bool.false_eq_true, if_false] at h
      by_cases hfe : rf.isEmpty = true
      · rw [hfe] at h
        simp only [if_true] at h
        simp only [exec, hp, if_true]
        exact ih1 h hγt
      · rw [Bool.not_eq_true] at hfe
        rw [hfe] at h
        simp only [Bool.false_eq_true, if_false] at h
        obtain ⟨T, hT, h⟩ := exceptBind_ok h
        obtain ⟨F, hF, h⟩ := exceptBind_ok h
        simp only [pure, Except.pure, Except.ok.injEq] at h
        subst h
        intro y
        simp only [exec, hp, if_true]
        exact Range.mem_union_left _ (ih1 hT hγt y)
    · rw [Bool.not_eq_true] at hp
      have hfalse : Range.mem (σ p.x) rf := by
        rw [hrf]
        exact Range.narrow_false_sound (hγ p.x) hp
      have hne : rf.isEmpty = false := Range.not_isEmpty_of_mem hfalse
      have hγf : memEnv σ (A.update p.x rf) := by
        intro y
        simp only [AbsEnv.update]
        by_cases hyx : y = p.x
        · simp only [if_pos hyx]
          subst hyx
          exact hfalse
        · simp only [if_neg hyx]
          exact hγ y
      rw [hne] at h
      simp only [Bool.and_false, Bool.false_eq_true, if_false] at h
      by_cases hte : rt.isEmpty = true
      · rw [hte] at h
        simp only [if_true] at h
        simp only [exec, hp, Bool.false_eq_true, if_false]
        exact ih2 h hγf
      · rw [Bool.not_eq_true] at hte
        rw [hte] at h
        simp only [Bool.false_eq_true, if_false] at h
        obtain ⟨T, hT, h⟩ := exceptBind_ok h
        obtain ⟨F, hF, h⟩ := exceptBind_ok h
        simp only [pure, Except.pure, Except.ok.injEq] at h
        subst h
        intro y
        simp only [exec, hp, Bool.false_eq_true, if_false]
        exact Range.mem_union_right _ (ih2 hF hγf y)
  | loop i lim body ih =>
    intro A A' h σ hγ
    rw [analyze] at h
    by_cases hnest : nestedLoopModifies body i = true
    · simp [hnest] at h
    · rw [Bool.not_eq_true] at hnest
      rw [if_neg (by simp [hnest])] at h
      by_cases hmj : (modifiesIn body i || modifiesIn body lim) = true
      · simp [hmj] at h
      · rw [Bool.not_eq_true, Bool.or_eq_false_iff] at hmj
        obtain ⟨hmbi, hmblim⟩ := hmj
        rw [if_neg (by simp [hmbi, hmblim])] at h
        by_cases hlims : ((loopLimits body).any (fun v => modifiesIn body v)
            || (loopLimits body).any (fun v => v == i)) = true
        · simp only [hlims, if_true] at h
          cases h
        · rw [Bool.not_eq_true, Bool.or_eq_false_iff] at hlims
          obtain ⟨hany, hconti⟩ := hlims
          rw [if_neg (by rw [hany, hconti]; simp)] at h
          obtain ⟨E, hE, h⟩ := exceptBind_ok h
          simp only [pure, Except.pure, Except.ok.injEq] at h
          have hmbody : ∀ v ∈ loopLimits body, modifiesIn body v = false := by
            intro v hv
            have := List.any_eq_false.1 hany v hv
            simpa using this
          have hnoti : ∀ v ∈ loopLimits body, ¬(v = i) := by
            intro v hv
            have := List.any_eq_false.1 hconti v hv
            simpa using this
          have hγlim : Range.mem (σ lim) (A lim) := hγ lim
          have hAp : ∀ v, Range.mem (exec (.loop i lim body) σ v)
              (if v = i then A lim
               else
                 match E v with
                 | some δ => Range.add (A v) (Range.mul (A lim) δ)
                 | none => (⟨0, none⟩ : Range)) := by
            intro v
            have hexecv : exec (.loop i lim body) σ v =
                ((iterN (fun k σ' => exec body (σ'.update i k)) (σ lim) σ).update i (σ lim)) v := rfl
            by_cases hvi : v = i
            · rw [if_pos hvi]
              have hval : exec (.loop i lim body) σ v = σ lim := by
                rw [hexecv, hvi]
                simp [State.update]
              rw [hval]
              exact hγlim
            · rw [if_neg hvi]
              have hval : exec (.loop i lim body) σ v =
                  iterN (fun k σ' => exec body (σ'.update i k)) (σ lim) σ v := by
                rw [hexecv]
                simp [State.update, hvi]
              rw [hval]
              cases hEv : E v with
              | none => exact Range.mem_top _
              | some δ =>
                have hgain := iterN_gain
                  (f := fun k σ' => exec body (σ'.update i k))
                  (P := fun σ' => ∀ w ∈ loopLimits body, σ' w = σ w)
                  (x := v) (δ := δ) (σ := σ)
                  (fun w _ => rfl)
                  (by
                    intro k σ' hPσ w hw
                    show exec body (σ'.update i k) w = σ w
                    rw [exec_unmodified (hmbody w hw) (σ'.update i k)]
                    simp only [State.update, if_neg (hnoti w hw)]
                    exact hPσ w hw)
                  (by
                    intro k σ' hPσ
                    have hγ' : ∀ w ∈ loopLimits body,
                        Range.mem ((σ'.update i k) w) (A w) := by
                      intro w hw
                      simp only [State.update, if_neg (hnoti w hw)]
                      rw [hPσ w hw]
                      exact hγ w
                    obtain ⟨d, hdmem, hd⟩ := bodyEff_sound hE hmbody hγ' v δ hEv
                    refine ⟨d, hdmem, ?_⟩
                    show exec body (σ'.update i k) v = σ' v + d
                    rw [hd]
                    simp only [State.update, if_neg hvi]) (σ lim)
                obtain ⟨_, D, hDeq, hDlo, hDhi⟩ := hgain
                rw [hDeq]
                exact Range.mem_add (hγ v) (mem_mul_of_gain hγlim hDlo hDhi)
          subst h
          intro v
          by_cases hL0 : (A lim).lo = 0
          · rw [if_pos hL0]
            exact Range.mem_union_left _ (hAp v)
          · rw [if_neg hL0]
            exact hAp v

/-- The fully unbounded abstract environment: every variable may hold
any natural value. -/
def topEnv : AbsEnv := fun _ => ⟨0, none⟩

/-- The all-zero concrete entry state. -/
def zeroState : State := fun _ => 0

/-- C1: soundness of reported ranges — for every program that the
analysis accepts (`analyze` returns a fact table rather than a
diagnostic) and every concrete execution whose entry state lies within
the entry fact table, the state reached after executing the program
lies within the reported fact table; since `analyze` and `exec` compose
statement by statement, applying this to every statement prefix places
every runtime value of every variable inside its reported range at
every reached program point, so no runtime value ever falls outside a
reported range. -/
theorem C1_soundness {s : Stmt} {A A' : AbsEnv} {σ : State}
    (hok : analyze s A = .ok A') (hγ : memEnv σ A) :
    memEnv (exec s σ) A' :=
  analyze_sound hok hγ

/-- A sample accepted program: `x = 5; for (i : count(n)) { if (i < 3) x += 1 }`. -/
def progC1 : Stmt :=
  .seq (.assign "x" (.lit 5))
    (.loop "i" "n" (.ite ⟨"i", .lt, 3⟩ (.incr "x" 1) .skip))

/-- The fact table reported for `progC1` from the unbounded entry
environment. -/
def progC1Res : AbsEnv :=
  match analyze progC1 topEnv with
  | .ok e => e
  | .error _ => topEnv

theorem C1_soundness_witness : memEnv (exec progC1 zeroState) progC1Res :=
  C1_soundness (rfl : analyze progC1 topEnv = .ok progC1Res)
    (fun _ => Range.mem_top 0)

/-- C4: branch-merge ranges are unions — (1) when both branches of a
conditional can be taken, the merged fact table is the pointwise union
of the two branch-exit fact tables; (2) when only the true branch can
be taken, the merge is exactly that branch's exit table (the union over
the single takeable branch); (3) for a loop whose iteration-count range
allows zero iterations, the post-loop table additionally includes the
whole pre-loop (post `i = 0`) range of every variable. -/
theorem C4_merge_union :
    (∀ (p : Pred) (s1 s2 : Stmt) (A M : AbsEnv),
      analyze (.ite p s1 s2) A = .ok M →
      (Range.narrow (A p.x) p.c p.k).1.isEmpty = false →
      (Range.narrow (A p.x) p.c p.k).2.isEmpty = false →
      ∃ T F,
        analyze s1 (A.update p.x (Range.narrow (A p.x) p.c p.k).1) = .ok T
        ∧ analyze s2 (A.update p.x (Range.narrow (A p.x) p.c p.k).2) = .ok F
        ∧ M = fun v => Range.union (T v) (F v))
    ∧ (∀ (p : Pred) (s1 s2 : Stmt) (A : AbsEnv),
      (Range.narrow (A p.x) p.c p.k).1.isEmpty = false →
      (Range.narrow (A p.x) p.c p.k).2.isEmpty = true →
      analyze (.ite p s1 s2) A =
        analyze s1 (A.update p.x (Range.narrow (A p.x) p.c p.k).1))
    ∧ (∀ (i lim : String) (body : Stmt) (A A' : AbsEnv),
      analyze (.loop i lim body) A = .ok A' →
      (A lim).lo = 0 →
      ∀ v r, Range.mem r ((A.update i ⟨0, some 1⟩) v) → Range.mem r (A' v)) := by
  refine ⟨?_, ?_, ?_⟩
  · intro p s1 s2 A M h ht hf
    simp only [analyze] at h
    rw [ht, hf] at h
    simp only [Bool.false_and, Bool.false_eq_true, if_false] at h
    obtain ⟨T, hT, h⟩ := exceptBind_ok h
    obtain ⟨F, hF, h⟩ := exceptBind_ok h
    simp only [pure, Except.pure, Except.ok.injEq] at h
    exact ⟨T, F, hT, hF, h.symm⟩
  · intro p s1 s2 A ht hf
    simp only [analyze]
    rw [ht, hf]
    simp
  · intro i lim body A A' h hL0 v r hr
    rw [analyze] at h
    by_cases hnest : nestedLoopModifies body i = true
    · simp [hnest] at h
    · rw [Bool.not_eq_true] at hnest
      rw [if_neg (by simp [hnest])] at h
      by_cases hmj : (modifiesIn body i || modifiesIn body lim) = true
      · simp [hmj] at h
      · rw [Bool.not_eq_true, Bool.or_eq_false_iff] at hmj
        rw [if_neg (by simp [hmj.1, hmj.2])] at h
        by_cases hlims : ((loopLimits body).any (fun v => modifiesIn body v)
            || (loopLimits body).any (fun v => v == i)) = true
        · simp only [hlims, if_true] at h
          cases h
        · rw [Bool.not_eq_true, Bool.or_eq_false_iff] at hlims
          rw [if_neg (by rw [hlims.1, hlims.2]; simp)] at h
          obtain ⟨E, hE, h⟩ := exceptBind_ok h
          simp only [pure, Except.pure, Except.ok.injEq] at h
          subst h
          rw [if_pos hL0]
          exact Range.mem_union_right _ hr

/-- Both branches of `if (x < 3)` are takeable from the unbounded entry
environment, and the merge of the two exits is their pointwise union;
a loop on an unbounded limit admits zero iterations, so its post-loop
table includes the pre-loop range. -/
theorem C4_merge_union_witness :
    (∃ T F,
      analyze (.incr "x" 1)
          (topEnv.update "x" (Range.narrow (topEnv "x") Cmp.lt 3).1) = .ok T
      ∧ analyze .skip
          (topEnv.update "x" (Range.narrow (topEnv "x") Cmp.lt 3).2) = .ok F
      ∧ (match analyze (.ite ⟨"x", .lt, 3⟩ (.incr "x" 1) .skip) topEnv with
         | .ok M => M
         | .error _ => topEnv) = fun v => Range.union (T v) (F v))
    ∧ (∀ v r, Range.mem r ((topEnv.update "i" ⟨0, some 1⟩) v) →
        Range.mem r ((match analyze (.loop "i" "n" (.incr "x" 1)) topEnv with
                      | .ok e => e
                      | .error _ => topEnv) v)) := by
  constructor
  · exact C4_merge_union.1 ⟨"x", .lt, 3⟩ (.incr "x" 1) .skip topEnv _ rfl
      (by decide) (by decide)
  · exact C4_merge_union.2.2 "i" "n" (.incr "x" 1) topEnv _ rfl rfl

/-- C5: nested iterator mutation is a hard failure — whenever a loop
nested inside the body of an analyzed loop writes to that outer loop's
iterator variable, the analysis of the outer loop fails with exactly
the `ConflictingIteratorMutation` diagnostic (no degraded approximation
is produced). -/
theorem C5_nested_iterator_mutation {i lim : String} {body : Stmt} {A : AbsEnv}
    (h : nestedLoopModifies body i = true) :
    analyze (.loop i lim body) A = .error .ConflictingIteratorMutation := by
  simp [analyze, h]

theorem C5_nested_iterator_mutation_witness :
    analyze (.loop "i" "n" (.loop "j" "m" (.incr "i" 1))) topEnv
      = .error .ConflictingIteratorMutation :=
  C5_nested_iterator_mutation (by decide)

/-- The compile-time resolution of residual branches on a collapsed
loop's fully-determined iterator: with the iterator known to equal
`k`, every conditional testing the iterator is replaced by the branch
it takes (recursively, also under nested loops, which never write the
outer iterator in an accepted program); every other statement is kept
shape for shape. -/
def resolveIte (i : String) (k : ℕ) : Stmt → Stmt
  | .skip => .skip
  | .assign x e => .assign x e
  | .incr x c => .incr x c
  | .seq s1 s2 => .seq (resolveIte i k s1) (resolveIte i k s2)
  | .ite p s1 s2 =>
      if p.x = i then
        if p.c.holds k p.k then resolveIte i k s1 else resolveIte i k s2
      else .ite p (resolveIte i k s1) (resolveIte i k s2)
  | .loop j lim b => .loop j lim (resolveIte i k b)

/-- The `k`-times expansion of a counted loop: the iterations
`0 .. k-1` in order, each preceded by the iterator assignment and with
every branch on the now-determined iterator resolved away, followed by
the final iterator value — the compile-time collapse replacement of
spec section 4.3 step 4. -/
def unrollIters (i : String) (body : Stmt) : ℕ → Stmt
  | 0 => .skip
  | n + 1 => .seq (unrollIters i body n)
      (.seq (.assign i (.lit n)) (resolveIte i n body))

/-- The collapse replacement of a whole loop with concrete trip count
`k`. -/
def expandLoop (i : String) (body : Stmt) (k : ℕ) : Stmt :=
  .seq (unrollIters i body k) (.assign i (.lit k))

/-- Does a statement contain any loop construct (the loop's own
residual runtime back-branch)? -/
def containsLoop : Stmt → Bool
  | .skip => false
  | .assign _ _ => false
  | .incr _ _ => false
  | .seq s1 s2 => containsLoop s1 || containsLoop s2
  | .ite _ s1 s2 => containsLoop s1 || containsLoop s2
  | .loop _ _ _ => true

/-- Does a statement contain a runtime branch whose condition tests the
given variable — a condition depending only on a collapsed loop's
fully-determined state? -/
def branchesOn (i : String) : Stmt → Bool
  | .skip => false
  | .assign _ _ => false
  | .incr _ _ => false
  | .seq s1 s2 => branchesOn i s1 || branchesOn i s2
  | .ite p s1 s2 => p.x == i || branchesOn i s1 || branchesOn i s2
  | .loop _ _ b => branchesOn i b

theorem exec_resolveIte {i : String} {k : ℕ} {s : Stmt} :
    modifiesIn s i = false →
    ∀ σ : State, σ i = k → exec (resolveIte i k s) σ = exec s σ := by
  induction s with
  | skip =>
    intro _ σ _
    rfl
  | assign x e =>
    intro _ σ _
    rfl
  | incr x c =>
    intro _ σ _
    rfl
  | seq s1 s2 ih1 ih2 =>
    intro hmod σ hσ
    simp only [modifiesIn, Bool.or_eq_false_iff] at hmod
    simp only [resolveIte, exec]
    rw [ih1 hmod.1 σ hσ,
      ih2 hmod.2 (exec s1 σ) (by rw [exec_unmodified hmod.1]; exact hσ)]
  | ite p s1 s2 ih1 ih2 =>
    intro hmod σ hσ
    simp only [modifiesIn, Bool.or_eq_false_iff] at hmod
    by_cases hpx : p.x = i
    · simp only [resolveIte, if_pos hpx]
      have hev : evalP p σ = p.c.holds k p.k := by
        unfold evalP
        rw [hpx, hσ]
      by_cases hh : p.c.holds k p.k = true
      · rw [if_pos hh]
        show _ = exec (.ite p s1 s2) σ
        simp only [exec, hev, hh, if_true]
        exact ih1 hmod.1 σ hσ
      · rw [Bool.not_eq_true] at hh
        rw [if_neg (by rw [hh]; exact Bool.false_ne_true)]
        show _ = exec (.ite p s1 s2) σ
        simp only [exec, hev, hh, Bool.false_eq_true, if_false]
        exact ih2 hmod.2 σ hσ
    · simp only [resolveIte, if_neg hpx, exec]
      by_cases hp : evalP p σ
      · simp only [hp, if_true]
        exact ih1 hmod.1 σ hσ
      · simp only [hp, Bool.false_eq_true, if_false]
        exact ih2 hmod.2 σ hσ
  | loop j lim b ih =>
    intro hmod σ hσ
    simp only [modifiesIn, Bool.or_eq_false_iff, beq_eq_false_iff_ne, ne_eq] at hmod
    obtain ⟨hji, hbi⟩ := hmod
    have hij : ¬(i = j) := fun h => hji h.symm
    simp only [resolveIte, exec]
    have key : ∀ n : ℕ,
        iterN (fun k' σ' => exec (resolveIte i k b) (σ'.update j k')) n σ
          = iterN (fun k' σ' => exec b (σ'.update j k')) n σ
        ∧ (iterN (fun k' σ' => exec b (σ'.update j k')) n σ) i = k := by
      intro n
      induction n with
      | zero => exact ⟨rfl, hσ⟩
      | succ m ihm =>
        obtain ⟨h1, h2⟩ := ihm
        constructor
        · simp only [iterN]
          rw [h1]
          exact ih hbi _ (by simp only [State.update, if_neg hij]; exact h2)
        · simp only [iterN]
          show exec b ((iterN (fun k' σ' => exec b (σ'.update j k')) m σ).update j m) i = k
          rw [exec_unmodified hbi]
          simp only [State.update, if_neg hij]
          exact h2
    rw [(key (σ lim)).1]

theorem branchesOn_resolveIte (i : String) (k : ℕ) :
    ∀ s : Stmt, branchesOn i (resolveIte i k s) = false := by
  intro s
  induction s with
  | skip => rfl
  | assign x e => rfl
  | incr x c => rfl
  | seq s1 s2 ih1 ih2 => simp [resolveIte, branchesOn, ih1, ih2]
  | ite p s1 s2 ih1 ih2 =>
    by_cases hpx : p.x = i
    · simp only [resolveIte, if_pos hpx]
      split
      · exact ih1
      · exact ih2
    · simp [resolveIte, if_neg hpx, branchesOn, ih1, ih2, hpx]
  | loop j lim b ih => simp [resolveIte, branchesOn, ih]

theorem containsLoop_resolveIte (i : String) (k : ℕ) :
    ∀ s : Stmt, containsLoop s = false → containsLoop (resolveIte i k s) = false := by
  intro s
  induction s with
  | skip => intro _; rfl
  | assign x e => intro _; rfl
  | incr x c => intro _; rfl
  | seq s1 s2 ih1 ih2 =>
    intro h
    simp only [containsLoop, Bool.or_eq_false_iff] at h
    simp [resolveIte, containsLoop, ih1 h.1, ih2 h.2]
  | ite p s1 s2 ih1 ih2 =>
    intro h
    simp only [containsLoop, Bool.or_eq_false_iff] at h
    by_cases hpx : p.x = i
    · simp only [resolveIte, if_pos hpx]
      split
      · exact ih1 h.1
      · exact ih2 h.2
    · simp [resolveIte, if_neg hpx, containsLoop, ih1 h.1, ih2 h.2]
  | loop j lim b ih =>
    intro h
    simp [containsLoop] at h

theorem containsLoop_unrollIters {i : String} {body : Stmt}
    (hb : containsLoop body = false) :
    ∀ n, containsLoop (unrollIters i body n) = false := by
  intro n
  induction n with
  | zero => rfl
  | succ m ihm =>
    simp [unrollIters, containsLoop, ihm, containsLoop_resolveIte i m body hb]

theorem branchesOn_unrollIters (i : String) (body : Stmt) :
    ∀ n, branchesOn i (unrollIters i body n) = false := by
  intro n
  induction n with
  | zero => rfl
  | succ m ihm =>
    simp [unrollIters, branchesOn, ihm, branchesOn_resolveIte i m body]

theorem exec_unrollIters {i : String} {body : Stmt}
    (hmod : modifiesIn body i = false) :
    ∀ (n : ℕ) (σ : State),
      exec (unrollIters i body n) σ =
        iterN (fun k σ' => exec body (σ'.update i k)) n σ := by
  intro n
  induction n with
  | zero =>
    intro σ
    rfl
  | succ m ihm =>
    intro σ
    show exec (.seq (unrollIters i body m)
      (.seq (.assign i (.lit m)) (resolveIte i m body))) σ = _
    simp only [exec, evalE, ihm]
    rw [exec_resolveIte hmod
      ((iterN (fun k σ' => exec body (σ'.update i k)) m σ).update i m)
      (by simp [State.update])]
    rfl

/-- C8: loop collapse on a concrete trip count — when the fact table
resolves a loop's limit (hence its trip count) to the single concrete
value `k`, and the body does not write the iterator (as holds for
every loop the analysis accepts), replacing the loop by its
`k`-times-expanded effect is behaviourally equivalent to the counted
runtime loop on every state the fact table admits; the replacement
contains no residual runtime branch on the loop's fully-determined
iterator (every conditional testing it is resolved at collapse time),
and adds no residual loop construct beyond those already inside the
body. -/
theorem C8_loop_collapse {i lim : String} {body : Stmt} {A : AbsEnv}
    {σ : State} {k : ℕ}
    (hA : A lim = ⟨k, some (k + 1)⟩) (hγ : memEnv σ A)
    (hmod : modifiesIn body i = false) :
    exec (.loop i lim body) σ = exec (expandLoop i body k) σ
    ∧ branchesOn i (expandLoop i body k) = false
    ∧ (containsLoop body = false → containsLoop (expandLoop i body k) = false) := by
  have hk : σ lim = k := by
    have hm := hγ lim
    rw [hA] at hm
    obtain ⟨h1, h2⟩ := hm
    have h1' : k ≤ σ lim := h1
    have h3' : σ lim < k + 1 := h2 (k + 1) rfl
    omega
  refine ⟨?_, ?_, ?_⟩
  · show (iterN (fun k' σ' => exec body (σ'.update i k')) (σ lim) σ).update i (σ lim)
        = exec (expandLoop i body k) σ
    simp only [expandLoop, exec, exec_unrollIters hmod, evalE, hk]
  · simp [expandLoop, branchesOn, branchesOn_unrollIters]
  · intro hb
    unfold expandLoop
    simp [containsLoop, containsLoop_unrollIters hb]

theorem C8_loop_collapse_witness :
    exec (.loop "i" "n" (.ite ⟨"i", .lt, 1⟩ (.incr "x" 1) .skip)) (fun _ => 2)
      = exec (expandLoop "i" (.ite ⟨"i", .lt, 1⟩ (.incr "x" 1) .skip) 2) (fun _ => 2)
    ∧ branchesOn "i" (expandLoop "i" (.ite ⟨"i", .lt, 1⟩ (.incr "x" 1) .skip) 2) = false
    ∧ (containsLoop (.ite ⟨"i", .lt, 1⟩ (.incr "x" 1) .skip) = false →
        containsLoop (expandLoop "i" (.ite ⟨"i", .lt, 1⟩ (.incr "x" 1) .skip) 2) = false) :=
  C8_loop_collapse (A := fun _ => ⟨2, some 3⟩) rfl
    (fun _ => ⟨Nat.le_refl 2, fun h hh => by cases hh; omega⟩) (by decide)

theorem C3_trip_count_bounds_witness :
    iterMinCount 0 1 2 ≤ 2 ∧ 2 ≤ iterMaxCountCeil 0 1 2 :=
  @C3_trip_count_bounds [1, 1] 0 2 2 0 0 1 1 2 2
    (by decide) (by decide) (by decide)
    (by decide) (by decide) (by decide) (by decide) (by decide)

/-! Back-insertion array bound resolver (spec sections 3.2 and 4.4). -/

/-- Modelled from the spec: the events of a back-insertion array's
lifetime in program order — a back-insertion statement together with
the range of its execution count (weighted by iteration-count bounds,
section 4.4), and an index read or write together with the proven range
of the index expression (reads and writes are checked identically, so
one event covers both). -/
inductive ArrEvent
  | insert (count : Range)
  | access (idx : Range)

/-- Modelled from the spec: the back-insertion resolver of section 4.4.
The running state is the accumulated element-count range (initially the
singleton `{0}`) and the phase flag.  Each back-insertion adds its
execution-count range; the first read or write completes the
back-insertion phase (`UnboundedArray` when no finite `maxElements` is
derivable); every access requires the index's proven upper bound to be
strictly below `minElements` — with an exclusive bound `hi = some h`
this is `h ≤ minElements` — and fails with `IndexOutOfProvenRange`
otherwise; a back-insertion after the phase completed fails with
`IllegalStructuralWrite`. -/
def resolveBI : List ArrEvent → Range → Bool → Except Diag (Range × Bool)
  | [], r, frozen => .ok (r, frozen)
  | .insert c :: rest, r, frozen =>
    if frozen then .error .IllegalStructuralWrite
    else resolveBI rest (Range.add r c) false
  | .access idx :: rest, r, frozen =>
    if !frozen && r.hi.isNone then .error .UnboundedArray
    else
      match idx.hi with
      | some h => if h ≤ r.lo then resolveBI rest r true else .error .IndexOutOfProvenRange
      | none => .error .IndexOutOfProvenRange

/-- The element-count range aggregated over a list of back-insertion
execution-count ranges (section 4.4: the `[minElements, maxElements]`
sum). -/
def sumCounts (cs : List Range) : Range :=
  cs.foldl Range.add ⟨0, some 1⟩

theorem resolveBI_inserts (cs : List Range) (rest : List ArrEvent) (r : Range) :
    resolveBI (cs.map .insert ++ rest) r false =
      resolveBI rest (cs.foldl Range.add r) false := by
  induction cs generalizing r with
  | nil => rfl
  | cons c cs ih =>
    simp only [List.map_cons, List.cons_append, resolveBI, Bool.false_eq_true, if_false,
      List.foldl_cons]
    exact ih (Range.add r c)

theorem resolveBI_append (xs ys : List ArrEvent) (r : Range) (f : Bool) :
    resolveBI (xs ++ ys) r f =
      (match resolveBI xs r f with
       | .error d => .error d
       | .ok st => resolveBI ys st.1 st.2) := by
  induction xs generalizing r f with
  | nil => rfl
  | cons e xs ih =>
    cases e with
    | insert c =>
      by_cases hf : f = true
      · subst hf
        simp [resolveBI]
      · rw [Bool.not_eq_true] at hf
        subst hf
        simp only [List.cons_append, resolveBI, Bool.false_eq_true, if_false]
        exact ih (Range.add r c) false
    | access idx =>
      simp only [List.cons_append, resolveBI]
      by_cases hu : (!f && r.hi.isNone) = true
      · simp [hu]
      · rw [Bool.not_eq_true] at hu
        simp only [hu, Bool.false_eq_true, if_false]
        cases hidx : idx.hi with
        | none => simp
        | some h =>
          by_cases hle : h ≤ r.lo
          · simp only [if_pos hle]
            exact ih r true
          · simp only [if_neg hle]

theorem resolveBI_frozen_insert {xs : List ArrEvent} {c : Range}
    (hc : ArrEvent.insert c ∈ xs) :
    ∀ r : Range, ∃ d, resolveBI xs r true = .error d := by
  induction xs with
  | nil => cases hc
  | cons e xs ih =>
    intro r
    cases e with
    | insert c' => exact ⟨.IllegalStructuralWrite, by simp [resolveBI]⟩
    | access idx =>
      have hc' : ArrEvent.insert c ∈ xs := by
        cases hc with
        | tail _ h => exact h
      simp only [resolveBI, Bool.not_true, Bool.false_and, Bool.false_eq_true, if_false]
      cases hidx : idx.hi with
      | none => exact ⟨.IndexOutOfProvenRange, rfl⟩
      | some h =>
        by_cases hle : h ≤ r.lo
        · obtain ⟨d, hd⟩ := ih hc' r
          refine ⟨d, ?_⟩
          show (if h ≤ r.lo then resolveBI xs r true
            else Except.error Diag.IndexOutOfProvenRange) = Except.error d
          rw [if_pos hle]
          exact hd
        · refine ⟨.IndexOutOfProvenRange, ?_⟩
          show (if h ≤ r.lo then resolveBI xs r true
            else Except.error Diag.IndexOutOfProvenRange)
            = Except.error Diag.IndexOutOfProvenRange
          rw [if_neg hle]

/-- C6: back-insertion index safety is checked against the minimum size
only — after any sequence of back-insertions whose aggregated count
range is finite, an index read or write is accepted exactly when the
index expression's proven upper bound is strictly below `minElements`
(with the exclusive bound `some h` this is `h ≤ minElements`; an
unbounded index has no proven upper bound), and otherwise the analysis
fails with exactly `IndexOutOfProvenRange`. -/
theorem C6_index_check (cs : List Range) (idx : Range) (Lh : ℕ)
    (hfin : (sumCounts cs).hi = some Lh) :
    resolveBI (cs.map .insert ++ [.access idx]) ⟨0, some 1⟩ false =
      (match idx.hi with
       | some h =>
         if h ≤ (sumCounts cs).lo then .ok (sumCounts cs, true)
         else .error .IndexOutOfProvenRange
       | none => .error .IndexOutOfProvenRange) := by
  rw [resolveBI_inserts]
  show resolveBI [ArrEvent.access idx] (sumCounts cs) false = _
  simp only [resolveBI, hfin, Option.isNone_some, Bool.not_false, Bool.and_false,
    Bool.false_eq_true, if_false]

theorem C6_index_check_witness :
    resolveBI ([⟨2, some 7⟩].map .insert ++ [.access ⟨0, some 2⟩]) ⟨0, some 1⟩ false
      = .ok (sumCounts [⟨2, some 7⟩], true)
    ∧ resolveBI ([⟨2, some 7⟩].map .insert ++ [.access ⟨0, some 3⟩]) ⟨0, some 1⟩ false
      = .error .IndexOutOfProvenRange := by
  constructor
  · rw [C6_index_check [⟨2, some 7⟩] ⟨0, some 2⟩ 7 rfl]
    rfl
  · rw [C6_index_check [⟨2, some 7⟩] ⟨0, some 3⟩ 7 rfl]
    rfl

/-- C7: no append ever follows the end of the back-insertion phase —
for every event sequence in which some back-insertion occurs anywhere
after a read or write (the event that completes the phase), the
resolver rejects the whole sequence with a diagnostic: once a read or
write has occurred, no further back-insertion is ever permitted. -/
theorem C7_no_append_after_access (pre mid post : List ArrEvent)
    (a c r : Range) (frozen : Bool) :
    ∃ d, resolveBI (pre ++ .access a :: (mid ++ .insert c :: post)) r frozen
      = .error d := by
  rw [resolveBI_append]
  cases hpre : resolveBI pre r frozen with
  | error d => exact ⟨d, rfl⟩
  | ok st =>
    show ∃ d, resolveBI (.access a :: (mid ++ .insert c :: post)) st.1 st.2 = .error d
    simp only [resolveBI]
    by_cases hu : (!st.2 && st.1.hi.isNone) = true
    · exact ⟨.UnboundedArray, by rw [if_pos hu]⟩
    · rw [Bool.not_eq_true] at hu
      cases hidx : a.hi with
      | none => exact ⟨.IndexOutOfProvenRange, by rw [hu]; simp⟩
      | some h =>
        by_cases hle : h ≤ st.1.lo
        · have hmem : ArrEvent.insert c ∈ mid ++ .insert c :: post := by
            simp
          obtain ⟨d, hd⟩ := resolveBI_frozen_insert hmem st.1
          exact ⟨d, by rw [hu]; simp only [Bool.false_eq_true, if_false, if_pos hle]; exact hd⟩
        · exact ⟨.IndexOutOfProvenRange, by rw [hu]; simp only [Bool.false_eq_true, if_false, if_neg hle]⟩

theorem C7_no_append_after_access_witness :
    ∃ d, resolveBI [.insert ⟨1, some 2⟩, .access ⟨0, some 1⟩, .insert ⟨1, some 2⟩]
      ⟨0, some 1⟩ false = .error d :=
  C7_no_append_after_access [.insert ⟨1, some 2⟩] [] [] ⟨0, some 1⟩ ⟨1, some 2⟩
    ⟨0, some 1⟩ false

/-! The C++ bootstrap tokenizer, embedded from
cpp-bootstrap/src/token.hpp.  File bytes are modelled as a list of raw
byte values; token and operator strings likewise (each constant notes
the source string). -/

/-- A source file (`File`): the stored path (`m_filePath`, never read by
the tokenizer) and the raw bytes (`m_bytes`). -/
structure SFile where
  path : String
  bytes : List ℕ

/-- A walking location in a file (`FileLocation`): byte offset from 0,
line starting at 1, column starting at 1 with a tab worth 8 columns. -/
structure SLoc where
  offset : ℕ
  line : ℕ
  column : ℕ
deriving DecidableEq, Repr

/-- `File::isBeforeEnd` / `FileLocation::isBeforeEnd`. -/
def isBeforeEnd (bytes : List ℕ) (l : SLoc) : Bool :=
  l.offset < bytes.length

/-- `FileLocation::getCurrentCharacter` (callers only read before the
end; out-of-range reads default to 0). -/
def curChar (bytes : List ℕ) (l : SLoc) : ℕ :=
  bytes.getD l.offset 0

/-- `FileLocation::getNextCharacter`. -/
def getNext (bytes : List ℕ) (l : SLoc) (k : ℕ) : ℕ :=
  bytes.getD (l.offset + k) 0

/-- `FileLocation::readableCharacterCount`. -/
def readableCount (bytes : List ℕ) (l : SLoc) : ℕ :=
  bytes.length - l.offset

/-- `FileLocation::moveForward`: byte 10 is the linefeed, byte 9 the
tab. -/
def moveForward (bytes : List ℕ) (l : SLoc) : SLoc :=
  let c := curChar bytes l
  { offset := l.offset + 1
    line := if c = 10 then l.line + 1 else l.line
    column := if c = 10 then 1 else if c = 9 then l.column + 8 else l.column + 1 }

/-- `FileLocation::moveForwardMultiple`. -/
def moveForwardN (bytes : List ℕ) : ℕ → SLoc → SLoc
  | 0, l => l
  | n + 1, l => moveForwardN bytes n (moveForward bytes l)

theorem moveForward_offset (bytes : List ℕ) (l : SLoc) :
    (moveForward bytes l).offset = l.offset + 1 := rfl

theorem moveForwardN_offset (bytes : List ℕ) (n : ℕ) (l : SLoc) :
    (moveForwardN bytes n l).offset = l.offset + n := by
  induction n generalizing l with
  | zero => rfl
  | succ m ih =>
    show (moveForwardN bytes m (moveForward bytes l)).offset = l.offset + (m + 1)
    rw [ih, moveForward_offset]
    omega

/-- `TokenClass`. -/
inductive TokenClass
  | layout
  | operator
  | digits
  | identifier
  | stringLiteral
deriving DecidableEq, Repr

/-- `TokenStub`: a token without a location in a file. -/
structure TokenStub where
  cls : TokenClass
  str : List ℕ
deriving DecidableEq, Repr

/-- `Token`: file location, class and underlying string. -/
structure Token where
  loc : SLoc
  cls : TokenClass
  str : List ℕ
deriving DecidableEq, Repr

namespace Tokens

def linefeed : TokenStub := ⟨.layout, [10]⟩

def dot : TokenStub := ⟨.operator, [46]⟩
def leftParenthesis : TokenStub := ⟨.operator, [40]⟩
def rightParenthesis : TokenStub := ⟨.operator, [41]⟩
def leftArraySubscript : TokenStub := ⟨.operator, [91]⟩
def rightArraySubscript : TokenStub := ⟨.operator, [93]⟩
def leftBracket : TokenStub := ⟨.operator, [123]⟩
def rightBracket : TokenStub := ⟨.operator, [125]⟩
def comma : TokenStub := ⟨.operator, [44]⟩
def colon : TokenStub := ⟨.operator, [58]⟩
def semicolon : TokenStub := ⟨.operator, [59]⟩
def variableArgumentCountType : TokenStub := ⟨.operator, [46, 46, 46]⟩
def assign : TokenStub := ⟨.operator, [60, 45]⟩

def booleanNot : TokenStub := ⟨.operator, [33]⟩
def binaryNot : TokenStub := ⟨.operator, [126]⟩
def plus : TokenStub := ⟨.operator, [43]⟩
def minus : TokenStub := ⟨.operator, [45]⟩
def increment : TokenStub := ⟨.operator, [43, 43]⟩
def decrement : TokenStub := ⟨.operator, [45, 45]⟩

def multiplication : TokenStub := ⟨.operator, [42]⟩
def division : TokenStub := ⟨.operator, [47]⟩
def modulo : TokenStub := ⟨.operator, [37]⟩

def shiftedToLeftBy : TokenStub := ⟨.operator, [60, 60]⟩
def shiftedToRightBy : TokenStub := ⟨.operator, [62, 62]⟩
def binaryOr : TokenStub := ⟨.operator, [124]⟩
def binaryAnd : TokenStub := ⟨.operator, [38]⟩
def binaryXor : TokenStub := ⟨.operator, [94]⟩

def equalTo : TokenStub := ⟨.operator, [61]⟩
def differentFrom : TokenStub := ⟨.operator, [61, 47, 61]⟩
def greaterThan : TokenStub := ⟨.operator, [62]⟩
def lesserThan : TokenStub := ⟨.operator, [60]⟩
def greaterThanOrEqualTo : TokenStub := ⟨.operator, [62, 95]⟩
def lesserThanOrEqualTo : TokenStub := ⟨.operator, [95, 60]⟩

/-- `Tokens::allOperators`, in source order. -/
def allOperators : List TokenStub :=
  [dot, leftParenthesis, rightParenthesis, leftArraySubscript,
   rightArraySubscript, leftBracket, rightBracket, comma, colon, semicolon,
   variableArgumentCountType, assign,
   booleanNot, binaryNot, plus, minus, increment, decrement,
   multiplication, division, modulo,
   shiftedToLeftBy, shiftedToRightBy, binaryOr, binaryAnd, binaryXor,
   equalTo, differentFrom, greaterThan, lesserThan, greaterThanOrEqualTo,
   lesserThanOrEqualTo]

end Tokens

/-- `TokenParser::isWhitespace`: at or below the space or at or above
0x7F, except the linefeed (on raw byte values, where the signed and
unsigned `char` readings of the C++ comparison agree). -/
def isWhitespace (c : ℕ) : Bool :=
  if c = 10 then false else c ≤ 32 || 127 ≤ c

/-- `TokenParser::skipWhitespace`. -/
def skipWhitespace (bytes : List ℕ) (l : SLoc) : SLoc :=
  if h : (isBeforeEnd bytes l && isWhitespace (curChar bytes l)) = true then
    skipWhitespace bytes (moveForward bytes l)
  else l
termination_by readableCount bytes l
decreasing_by
  simp only [isBeforeEnd, Bool.and_eq_true, decide_eq_true_eq] at h
  simp only [readableCount, moveForward_offset]
  omega

/-- `TokenParser::skipLine`. -/
def skipLine (bytes : List ℕ) (l : SLoc) : SLoc :=
  if h : isBeforeEnd bytes l = true then
    if curChar bytes l = 10 then moveForward bytes l
    else skipLine bytes (moveForward bytes l)
  else l
termination_by readableCount bytes l
decreasing_by
  simp only [isBeforeEnd, decide_eq_true_eq] at h
  simp only [readableCount, moveForward_offset]
  omega

/-- `TokenParser::doesFileContainStringAt`. -/
def containsStrAt (bytes : List ℕ) (l : SLoc) (t : List ℕ) : Bool :=
  if readableCount bytes l < t.length then false
  else (List.range t.length).all fun k => getNext bytes l k == t.getD k 0

/-- `TokenParser::singleLineComment`, the bytes of the source string. -/
def singleLineComment : List ℕ := [47, 47]

/-- `TokenParser::multiLineCommentBegin`. -/
def multiLineCommentBegin : List ℕ := [47, 42]

/-- `TokenParser::multiLineCommentEnd`. -/
def multiLineCommentEnd : List ℕ := [42, 47]

/-- The scan for the end of a multi-line comment — the `while` loop of
`TokenParser::skipComment`. -/
def commentEndScan (bytes : List ℕ) (l : SLoc) : SLoc :=
  if h : isBeforeEnd bytes l = true then
    if containsStrAt bytes l multiLineCommentEnd then
      moveForwardN bytes multiLineCommentEnd.length l
    else commentEndScan bytes (moveForward bytes l)
  else l
termination_by readableCount bytes l
decreasing_by
  simp only [isBeforeEnd, decide_eq_true_eq] at h
  simp only [readableCount, moveForward_offset]
  omega

/-- `TokenParser::skipComment`. -/
def skipComment (bytes : List ℕ) (l : SLoc) : SLoc :=
  if containsStrAt bytes l singleLineComment then skipLine bytes l
  else if containsStrAt bytes l multiLineCommentBegin then commentEndScan bytes l
  else l

theorem skipWhitespace_offset_ge (bytes : List ℕ) (l : SLoc) :
    l.offset ≤ (skipWhitespace bytes l).offset := by
  rw [skipWhitespace]
  split
  · rename_i h
    have ih := skipWhitespace_offset_ge bytes (moveForward bytes l)
    rw [moveForward_offset] at ih
    omega
  · exact Nat.le_refl _
termination_by readableCount bytes l
decreasing_by
  simp only [readableCount, moveForward_offset]
  simp only [isBeforeEnd, Bool.and_eq_true, decide_eq_true_eq] at *
  omega

theorem skipLine_offset_ge (bytes : List ℕ) (l : SLoc) :
    l.offset ≤ (skipLine bytes l).offset := by
  rw [skipLine]
  split
  · rename_i h
    split
    · rw [moveForward_offset]
      omega
    · have ih := skipLine_offset_ge bytes (moveForward bytes l)
      rw [moveForward_offset] at ih
      omega
  · exact Nat.le_refl _
termination_by readableCount bytes l
decreasing_by
  simp only [readableCount, moveForward_offset]
  simp only [isBeforeEnd, decide_eq_true_eq] at *
  omega

theorem commentEndScan_offset_ge (bytes : List ℕ) (l : SLoc) :
    l.offset ≤ (commentEndScan bytes l).offset := by
  rw [commentEndScan]
  split
  · rename_i h
    split
    · rw [moveForwardN_offset]
      omega
    · have ih := commentEndScan_offset_ge bytes (moveForward bytes l)
      rw [moveForward_offset] at ih
      omega
  · exact Nat.le_refl _
termination_by readableCount bytes l
decreasing_by
  simp only [readableCount, moveForward_offset]
  simp only [isBeforeEnd, decide_eq_true_eq] at *
  omega

theorem skipComment_offset_ge (bytes : List ℕ) (l : SLoc) :
    l.offset ≤ (skipComment bytes l).offset := by
  unfold skipComment
  split
  · exact skipLine_offset_ge bytes l
  · split
    · exact commentEndScan_offset_ge bytes l
    · exact Nat.le_refl _

/-- The tokenizer failure cases (`std::runtime_error` throws in the
C++ source, carrying the offset their message embeds). -/
inductive TokErr
  | unterminatedString (offset : ℕ)
  | illegalCharacter (offset : ℕ)
deriving DecidableEq, Repr

/-- The scanning loop of `TokenParser::pollString`, after the opening
delimiter has been skipped. -/
def pollStringLoop (bytes : List ℕ) (delim : ℕ) (beginLoc : SLoc) :
    SLoc → List ℕ → Except TokErr (Token × SLoc)
  | l, acc =>
    if h : isBeforeEnd bytes l = true then
      if curChar bytes l = delim then
        .ok (⟨beginLoc, .stringLiteral, acc⟩, moveForward bytes l)
      else
        pollStringLoop bytes delim beginLoc (moveForward bytes l)
          (acc ++ [curChar bytes l])
    else .error (.unterminatedString beginLoc.offset)
termination_by l acc => readableCount bytes l
decreasing_by
  simp only [readableCount, moveForward_offset]
  simp only [isBeforeEnd, decide_eq_true_eq] at *
  omega

/-- `TokenParser::pollString`. -/
def pollString (bytes : List ℕ) (l : SLoc) : Except TokErr (Token × SLoc) :=
  pollStringLoop bytes (curChar bytes l) l (moveForward bytes l) []

theorem pollStringLoop_offset_gt (bytes : List ℕ) (delim : ℕ) (beginLoc : SLoc)
    (l : SLoc) (acc : List ℕ) {t : Token} {l2 : SLoc}
    (h : pollStringLoop bytes delim beginLoc l acc = .ok (t, l2)) :
    l.offset < l2.offset := by
  rw [pollStringLoop] at h
  split at h
  · split at h
    · simp only [Except.ok.injEq, Prod.mk.injEq] at h
      rw [← h.2, moveForward_offset]
      omega
    · have ih := pollStringLoop_offset_gt bytes delim beginLoc
        (moveForward bytes l) (acc ++ [curChar bytes l]) h
      rw [moveForward_offset] at ih
      omega
  · cases h
termination_by readableCount bytes l
decreasing_by
  simp only [readableCount, moveForward_offset]
  simp only [isBeforeEnd, decide_eq_true_eq] at *
  omega

theorem pollString_offset_gt (bytes : List ℕ) (l : SLoc) {t : Token} {l2 : SLoc}
    (h : pollString bytes l = .ok (t, l2)) : l.offset < l2.offset := by
  have := pollStringLoop_offset_gt bytes (curChar bytes l) l
    (moveForward bytes l) [] h
  rw [moveForward_offset] at this
  omega

/-- `TokenParser::toLower`. -/
def toLower (c : ℕ) : ℕ :=
  if 65 ≤ c ∧ c ≤ 90 then c + 32 else c

/-- `TokenParser::isCharDigit`. -/
def isCharDigit (c : ℕ) : Bool :=
  48 ≤ c && c ≤ 57

/-- `TokenParser::isCharAlphanum`. -/
def isCharAlphanum (c : ℕ) : Bool :=
  (97 ≤ toLower c && toLower c ≤ 122) || isCharDigit (toLower c)

/-- The scanning loop of `TokenParser::pollCharSequence`. -/
def pollCharSeqLoop (bytes : List ℕ) : SLoc → List ℕ → List ℕ × SLoc
  | l, acc =>
    if h : (isBeforeEnd bytes l
        && (isCharAlphanum (curChar bytes l) || curChar bytes l == 95)) = true then
      pollCharSeqLoop bytes (moveForward bytes l) (acc ++ [curChar bytes l])
    else (acc, l)
termination_by l acc => readableCount bytes l
decreasing_by
  simp only [readableCount, moveForward_offset]
  simp only [isBeforeEnd, Bool.and_eq_true, decide_eq_true_eq] at *
  omega

/-- `TokenParser::pollCharSequence` (byte 95 is the underscore; the
digit test looks at the first character before the scan). -/
def pollCharSequence (bytes : List ℕ) (l : SLoc) : Token × SLoc :=
  let res := pollCharSeqLoop bytes l []
  (⟨l, if isCharDigit (curChar bytes l) then .digits else .identifier, res.1⟩,
   res.2)

theorem pollCharSeqLoop_offset (bytes : List ℕ) (l : SLoc) (acc : List ℕ) :
    (pollCharSeqLoop bytes l acc).2.offset + acc.length
      = l.offset + (pollCharSeqLoop bytes l acc).1.length := by
  rw [pollCharSeqLoop]
  split
  · have ih := pollCharSeqLoop_offset bytes (moveForward bytes l)
      (acc ++ [curChar bytes l])
    simp only [List.length_append, List.length_cons, List.length_nil,
      moveForward_offset] at ih
    omega
  · simp
termination_by readableCount bytes l
decreasing_by
  simp only [readableCount, moveForward_offset]
  simp only [isBeforeEnd, Bool.and_eq_true, decide_eq_true_eq] at *
  omega

/-- One step of the maximal-munch selection loop in
`TokenParser::getTokenAt`: a matching operator replaces the best match
found so far exactly when it is strictly longer. -/
def bestStep (bytes : List ℕ) (l : SLoc) (best : Option (ℕ × TokenStub))
    (op : TokenStub) : Option (ℕ × TokenStub) :=
  if containsStrAt bytes l op.str then
    match best with
    | none => some (op.str.length, op)
    | some b => if op.str.length > b.1 then some (op.str.length, op) else some b
  else best

/-- The operator-selection loop of `TokenParser::getTokenAt` over
`Tokens::allOperators`. -/
def bestOperator (bytes : List ℕ) (l : SLoc) : Option (ℕ × TokenStub) :=
  Tokens.allOperators.foldl (bestStep bytes l) none

theorem bestStep_none {bytes : List ℕ} {l : SLoc} {op : TokenStub}
    (hc : containsStrAt bytes l op.str = true) :
    bestStep bytes l none op = some (op.str.length, op) := by
  unfold bestStep
  rw [if_pos hc]

theorem bestStep_some {bytes : List ℕ} {l : SLoc} {op : TokenStub}
    {b1 : ℕ × TokenStub} (hc : containsStrAt bytes l op.str = true) :
    bestStep bytes l (some b1) op =
      if op.str.length > b1.1 then some (op.str.length, op) else some b1 := by
  unfold bestStep
  rw [if_pos hc]

theorem bestStep_nomatch {bytes : List ℕ} {l : SLoc} {op : TokenStub}
    {best : Option (ℕ × TokenStub)}
    (hc : containsStrAt bytes l op.str = false) :
    bestStep bytes l best op = best := by
  unfold bestStep
  rw [if_neg (by rw [hc]; exact Bool.false_ne_true)]

theorem foldBest_valid (bytes : List ℕ) (l : SLoc) (P : ℕ × TokenStub → Prop)
    (ops : List TokenStub) :
    ∀ init : Option (ℕ × TokenStub),
    (∀ b0, init = some b0 → P b0) →
    (∀ op ∈ ops, containsStrAt bytes l op.str = true → P (op.str.length, op)) →
    ∀ b, ops.foldl (bestStep bytes l) init = some b → P b := by
  induction ops with
  | nil =>
    intro init hinit _ b hb
    exact hinit b hb
  | cons op ops ih =>
    intro init hinit hops b hb
    rw [List.foldl_cons] at hb
    refine ih (bestStep bytes l init op) ?_
      (fun op' h' hc => hops op' (List.mem_cons_of_mem _ h') hc) b hb
    intro b0 hb0
    by_cases hc : containsStrAt bytes l op.str = true
    · cases hinit0 : init with
      | none =>
        rw [hinit0, bestStep_none hc] at hb0
        cases hb0
        exact hops op (List.mem_cons_self op ops) hc
      | some b1 =>
        rw [hinit0, bestStep_some hc] at hb0
        split at hb0
        · cases hb0
          exact hops op (List.mem_cons_self op ops) hc
        · cases hb0
          exact hinit b0 hinit0
    · rw [Bool.not_eq_true] at hc
      rw [bestStep_nomatch hc] at hb0
      exact hinit b0 hb0

theorem foldBest_max (bytes : List ℕ) (l : SLoc) (ops : List TokenStub) :
    ∀ init : Option (ℕ × TokenStub),
    ∀ b, ops.foldl (bestStep bytes l) init = some b →
    (∀ op ∈ ops, containsStrAt bytes l op.str = true → op.str.length ≤ b.1)
    ∧ (∀ b0, init = some b0 → b0.1 ≤ b.1) := by
  induction ops with
  | nil =>
    intro init b hb
    refine ⟨fun op h _ => absurd h (List.not_mem_nil op), ?_⟩
    intro b0 hb0
    rw [hb0] at hb
    simp only [List.foldl_nil, Option.some.injEq] at hb
    rw [hb]
  | cons op ops ih =>
    intro init b hb
    rw [List.foldl_cons] at hb
    obtain ⟨hops, hinit⟩ := ih (bestStep bytes l init op) b hb
    have hstep : ∀ b0, init = some b0 → b0.1 ≤ b.1 := by
      intro b0 hb0
      by_cases hc : containsStrAt bytes l op.str = true
      · rw [hb0, bestStep_some hc] at hinit
        by_cases hgt : op.str.length > b0.1
        · have := hinit (op.str.length, op) (by rw [if_pos hgt])
          omega
        · exact hinit b0 (by rw [if_neg hgt])
      · rw [Bool.not_eq_true] at hc
        rw [hb0, bestStep_nomatch hc] at hinit
        exact hinit b0 rfl
    refine ⟨?_, hstep⟩
    intro op' hmem hc
    cases List.mem_cons.1 hmem with
    | inr h' => exact hops op' h' hc
    | inl h' =>
      subst h'
      cases hinit0 : init with
      | none =>
        rw [hinit0, bestStep_none hc] at hinit
        exact hinit (op'.str.length, op') rfl
      | some b1 =>
        rw [hinit0, bestStep_some hc] at hinit
        by_cases hgt : op'.str.length > b1.1
        · exact hinit (op'.str.length, op') (by rw [if_pos hgt])
        · have := hinit b1 (by rw [if_neg hgt])
          omega

theorem foldBest_isSome (bytes : List ℕ) (l : SLoc) (ops : List TokenStub) :
    ∀ init : Option (ℕ × TokenStub), init.isSome = true →
    (ops.foldl (bestStep bytes l) init).isSome = true := by
  induction ops with
  | nil => intro init h; exact h
  | cons op ops ih =>
    intro init h
    rw [List.foldl_cons]
    refine ih (bestStep bytes l init op) ?_
    cases hinit0 : init with
    | none =>
      rw [hinit0] at h
      cases h
    | some b1 =>
      by_cases hc : containsStrAt bytes l op.str = true
      · rw [bestStep_some hc]
        split <;> rfl
      · rw [Bool.not_eq_true] at hc
        rw [bestStep_nomatch hc]
        rfl

theorem foldBest_some_of_mem (bytes : List ℕ) (l : SLoc) (ops : List TokenStub)
    {op : TokenStub} (hmem : op ∈ ops)
    (hc : containsStrAt bytes l op.str = true) :
    ∀ init : Option (ℕ × TokenStub),
    (ops.foldl (bestStep bytes l) init).isSome = true := by
  induction ops with
  | nil => cases hmem
  | cons op' ops ih =>
    intro init
    rw [List.foldl_cons]
    cases List.mem_cons.1 hmem with
    | inl h' =>
      subst h'
      refine foldBest_isSome bytes l ops (bestStep bytes l init op) ?_
      cases init with
      | none =>
        rw [bestStep_none hc]
        rfl
      | some b1 =>
        rw [bestStep_some hc]
        split <;> rfl
    | inr h' => exact ih h' (bestStep bytes l init op')

/-- `TokenParser::getTokenAt`: a linefeed token, else a string literal
(byte 39 is the single and 34 the double quote), else the
maximal-munch operator match, else the fallback character sequence. -/
def getTokenAt (bytes : List ℕ) (l : SLoc) : Except TokErr (Token × SLoc) :=
  let firstChar := curChar bytes l
  if firstChar = 10 then
    .ok (⟨l, Tokens.linefeed.cls, Tokens.linefeed.str⟩, moveForward bytes l)
  else if firstChar = 39 ∨ firstChar = 34 then pollString bytes l
  else
    match bestOperator bytes l with
    | some b => .ok (⟨l, b.2.cls, b.2.str⟩, moveForwardN bytes b.1 l)
    | none => .ok (pollCharSequence bytes l)

theorem getTokenAt_advance (bytes : List ℕ) (l : SLoc) {tl : Token × SLoc}
    (h : getTokenAt bytes l = .ok tl) (hne : ¬tl.1.str.length = 0) :
    l.offset < tl.2.offset := by
  simp only [getTokenAt] at h
  split at h
  · simp only [Except.ok.injEq] at h
    rw [← h, moveForward_offset]
    omega
  · split at h
    · exact @pollString_offset_gt bytes l tl.1 tl.2 (by rw [h])
    · split at h
      · rename_i b hb
        have hb' : Tokens.allOperators.foldl (bestStep bytes l) none = some b := hb
        have hvalid := foldBest_valid bytes l (fun b => b.1 = b.2.str.length)
          Tokens.allOperators none (fun b0 h0 => by cases h0)
          (fun op' _ _ => rfl) b hb'
        simp only [Except.ok.injEq] at h
        rw [← h]
        show l.offset < (moveForwardN bytes b.1 l).offset
        rw [moveForwardN_offset, hvalid]
        have : b.2.str.length ≠ 0 := by
          intro h0
          apply hne
          rw [← h]
          show b.2.str.length = 0
          exact h0
        omega
      · simp only [Except.ok.injEq] at h
        have hoff := pollCharSeqLoop_offset bytes l []
        rw [← h] at hne ⊢
        show l.offset < (pollCharSeqLoop bytes l []).2.offset
        have hne' : (pollCharSeqLoop bytes l []).1.length ≠ 0 := hne
        simp only [List.length_nil, Nat.add_zero] at hoff
        omega

/-- `TokenParser::getNextTokenOffsetFrom`: skip whitespace and
comments until no comment is detected, leaving the location at the next
token (or at the end of the file). -/
def nextTokenLoc (bytes : List ℕ) (l : SLoc) : SLoc :=
  if h : isBeforeEnd bytes l = true then
    if h2 : (skipComment bytes (skipWhitespace bytes l)).offset
        = (skipWhitespace bytes l).offset then
      skipWhitespace bytes l
    else nextTokenLoc bytes (skipComment bytes (skipWhitespace bytes l))
  else l
termination_by readableCount bytes l
decreasing_by
  have g1 := skipWhitespace_offset_ge bytes l
  have g2 := skipComment_offset_ge bytes (skipWhitespace bytes l)
  simp only [readableCount]
  simp only [isBeforeEnd, decide_eq_true_eq] at h
  omega

theorem nextTokenLoc_offset_ge (bytes : List ℕ) (l : SLoc) :
    l.offset ≤ (nextTokenLoc bytes l).offset := by
  rw [nextTokenLoc]
  split
  · rename_i h
    have g1 := skipWhitespace_offset_ge bytes l
    split
    · exact g1
    · rename_i h2
      have g2 := skipComment_offset_ge bytes (skipWhitespace bytes l)
      have ih := nextTokenLoc_offset_ge bytes
        (skipComment bytes (skipWhitespace bytes l))
      omega
  · exact Nat.le_refl _
termination_by readableCount bytes l
decreasing_by
  have g1 := skipWhitespace_offset_ge bytes l
  have g2 := skipComment_offset_ge bytes (skipWhitespace bytes l)
  simp only [readableCount]
  simp only [isBeforeEnd, decide_eq_true_eq] at *
  omega

/-- The `while` loop of `TokenParser::readTokens`. -/
def readTokensLoop (bytes : List ℕ) : SLoc → List Token → Except TokErr (List Token)
  | l, acc =>
    if h1 : isBeforeEnd bytes l = true then
      if h2 : isBeforeEnd bytes (nextTokenLoc bytes l) = true then
        match h3 : getTokenAt bytes (nextTokenLoc bytes l) with
        | .error e => .error e
        | .ok tl =>
          if h4 : tl.1.str.length = 0 then .error (.illegalCharacter tl.2.offset)
          else readTokensLoop bytes tl.2 (acc ++ [tl.1])
      else .ok acc
    else .ok acc
termination_by l acc => readableCount bytes l
decreasing_by
  have g1 := nextTokenLoc_offset_ge bytes l
  have g2 := getTokenAt_advance bytes (nextTokenLoc bytes l) h3 h4
  simp only [readableCount]
  simp only [isBeforeEnd, decide_eq_true_eq] at h1
  omega

/-- `TokenParser::readTokens`: tokenize a whole file from its first
byte. -/
def readTokens (f : SFile) : Except TokErr (List Token) :=
  readTokensLoop f.bytes ⟨0, 1, 1⟩ []

/-- C9: the tokenization stage is deterministic and idempotent — the
embedding of `TokenParser::readTokens` is a pure function, so two runs
on the same input are the same term, and its result depends on nothing
but the file's bytes: two files with identical byte contents (whatever
their paths) produce identical token sequences. -/
theorem C9_determinism (f1 f2 : SFile) (hb : f1.bytes = f2.bytes) :
    readTokens f1 = readTokens f2 ∧ readTokens f1 = readTokens f1 := by
  constructor
  · unfold readTokens
    rw [hb]
  · rfl

theorem C9_determinism_witness :
    readTokens ⟨"a.spp", [60, 60]⟩ = readTokens ⟨"b.spp", [60, 60]⟩
    ∧ readTokens ⟨"a.spp", [60, 60]⟩ = readTokens ⟨"a.spp", [60, 60]⟩ :=
  C9_determinism ⟨"a.spp", [60, 60]⟩ ⟨"b.spp", [60, 60]⟩ rfl

theorem allOperators_facts :
    ∀ op ∈ Tokens.allOperators,
      0 < op.str.length ∧ op.cls = TokenClass.operator
      ∧ op.str.getD 0 0 ≠ 10 ∧ op.str.getD 0 0 ≠ 39 ∧ op.str.getD 0 0 ≠ 34 := by
  decide

theorem containsStrAt_head {bytes : List ℕ} {l : SLoc} {t : List ℕ}
    (hc : containsStrAt bytes l t = true) (hne : 0 < t.length) :
    curChar bytes l = t.getD 0 0 := by
  unfold containsStrAt at hc
  split at hc
  · cases hc
  · have := List.all_eq_true.1 hc 0 (List.mem_range.2 hne)
    simp only [beq_iff_eq] at this
    show bytes.getD l.offset 0 = t.getD 0 0
    rw [← this]
    show bytes.getD l.offset 0 = bytes.getD (l.offset + 0) 0
    rw [Nat.add_zero]

/-- C10: operator tokenization is maximal munch — whenever at least one
operator string of `Tokens::allOperators` matches at the current
location, `getTokenAt` returns an operator token whose string is one of
the matching operators, of maximal length among all operators matching
there, and advances the location by exactly that length (so input `<<`
yields the single shift-left token, never two `<` tokens). -/
theorem C10_maximal_munch (bytes : List ℕ) (l : SLoc)
    (hop : ∃ op ∈ Tokens.allOperators, containsStrAt bytes l op.str = true) :
    ∃ t : Token, ∃ l2 : SLoc,
      getTokenAt bytes l = .ok (t, l2)
      ∧ t.cls = .operator
      ∧ (∃ op ∈ Tokens.allOperators,
          containsStrAt bytes l op.str = true ∧ t.str = op.str)
      ∧ (∀ op ∈ Tokens.allOperators, containsStrAt bytes l op.str = true →
          op.str.length ≤ t.str.length)
      ∧ l2.offset = l.offset + t.str.length := by
  obtain ⟨op, hmem, hc⟩ := hop
  obtain ⟨hlen, _, h10, h39, h34⟩ := allOperators_facts op hmem
  have hcur : curChar bytes l = op.str.getD 0 0 := containsStrAt_head hc hlen
  have hne10 : ¬(curChar bytes l = 10) := by
    rw [hcur]
    exact h10
  have hneq : ¬(curChar bytes l = 39 ∨ curChar bytes l = 34) := by
    rw [hcur]
    rintro (e | e)
    · exact h39 e
    · exact h34 e
  have hsome := foldBest_some_of_mem bytes l Tokens.allOperators hmem hc none
  obtain ⟨b, hb⟩ := Option.isSome_iff_exists.1 hsome
  have hb' : bestOperator bytes l = some b := hb
  have hvalid := foldBest_valid bytes l
    (fun b => b.2 ∈ Tokens.allOperators ∧ containsStrAt bytes l b.2.str = true
      ∧ b.1 = b.2.str.length)
    Tokens.allOperators none (fun b0 h0 => by cases h0)
    (fun op' hm hcc => ⟨hm, hcc, rfl⟩) b hb
  have hmax := (foldBest_max bytes l Tokens.allOperators none b hb).1
  obtain ⟨hbmem, hbc, hblen⟩ := hvalid
  obtain ⟨_, hbcls, _, _, _⟩ := allOperators_facts b.2 hbmem
  refine ⟨⟨l, b.2.cls, b.2.str⟩, moveForwardN bytes b.1 l, ?_, ?_, ?_, ?_, ?_⟩
  · simp only [getTokenAt]
    rw [if_neg hne10, if_neg hneq, hb']
  · exact hbcls
  · exact ⟨b.2, hbmem, hbc, rfl⟩
  · intro op' hm hcc
    have := hmax op' hm hcc
    rw [hblen] at this
    exact this
  · rw [moveForwardN_offset, hblen]

theorem C10_maximal_munch_witness :
    ∃ t : Token, ∃ l2 : SLoc,
      getTokenAt [60, 60] ⟨0, 1, 1⟩ = .ok (t, l2)
      ∧ t.cls = .operator
      ∧ (∃ op ∈ Tokens.allOperators,
          containsStrAt [60, 60] ⟨0, 1, 1⟩ op.str = true ∧ t.str = op.str)
      ∧ (∀ op ∈ Tokens.allOperators, containsStrAt [60, 60] ⟨0, 1, 1⟩ op.str = true →
          op.str.length ≤ t.str.length)
      ∧ l2.offset = (⟨0, 1, 1⟩ : SLoc).offset + t.str.length :=
  C10_maximal_munch [60, 60] ⟨0, 1, 1⟩
    ⟨Tokens.shiftedToLeftBy, by decide, by decide⟩

end Spp
